import Mathlib

/-
Verification development for the execution-fairness-simulator repository.

The Go sources are shallowly embedded: machine integers (int64, uint64,
int) are modelled as Lean Int / Nat (overflow is immaterial to the
properties below and is not modelled); Go slices are Lean lists; a Go
map is modelled by its key set together with the data it aliases; Go
pointer aliasing between the book's price levels and its order index is
resolved by storing orders by value in the levels and locating the
pointer target of an index entry inside the levels (the two views agree
on every state reachable by the book's operations, which is part of the
invariant proved below).
-/

set_option maxHeartbeats 1000000

namespace FairSim

/-- Order type enum (domain.OrderType: LIMIT / MARKET / CANCEL). -/
inductive OrderType where
  | limit
  | market
  | cancel
deriving Repr, DecidableEq

/-- Event type enum (domain.EventType). -/
inductive EventType where
  | orderAccepted
  | orderCanceled
  | tradeExecuted
  | bboUpdate
  | signal
  | reQuote
  | simStart
  | simEnd
deriving Repr, DecidableEq

/-- domain.Buy = 1 (Side is int8 in Go; we keep the integer carrier). -/
def buySide : Int := 1

/-- domain.Sell = -1. -/
def sellSide : Int := -1

/-- domain.Order. Field defaults are Go zero values, so record literals
omitting fields behave like Go composite literals. Signal values
(float64 in Go) are modelled exactly as rationals. -/
structure Order where
  id : Nat := 0
  traderId : String := ""
  side : Int := 0
  otype : OrderType := OrderType.limit
  price : Int := 0
  qty : Int := 0
  remainingQty : Int := 0
  decisionTime : Int := 0
  arrivalTime : Int := 0
  seqNo : Nat := 0
  cancelId : Nat := 0
  queuePos : Int := 0
deriving Repr, DecidableEq

/-- domain.Trade. -/
structure Trade where
  id : Nat := 0
  buyOrderId : Nat := 0
  sellOrderId : Nat := 0
  buyTrader : String := ""
  sellTrader : String := ""
  price : Int := 0
  qty : Int := 0
  timestamp : Int := 0
  passiveOrderId : Nat := 0
  aggressorOrderId : Nat := 0
  restingQueuePos : Int := 0
deriving Repr, DecidableEq

/-- domain.BBO. -/
structure BBO where
  bidPrice : Int := 0
  bidQty : Int := 0
  askPrice : Int := 0
  askQty : Int := 0
  midPrice : Int := 0
deriving Repr, DecidableEq

/-- domain.Signal (Value is float64 in Go, modelled exactly). -/
structure Signal where
  value : Rat := 0
  midPrice : Int := 0
deriving Repr, DecidableEq

/-- domain.Event. The four payload pointers are Options. -/
structure Event where
  seqNo : Nat := 0
  timestamp : Int := 0
  etype : EventType := EventType.orderAccepted
  traderId : String := ""
  order : Option Order := none
  trade : Option Trade := none
  bbo : Option BBO := none
  sig : Option Signal := none
deriving Repr, DecidableEq

/-- orderbook.PriceLevel. -/
structure PriceLevel where
  price : Int := 0
  orders : List Order := []
deriving Repr, DecidableEq

/-- PriceLevel.TotalQty: sum of remaining quantities at this level. -/
def PriceLevel.totalQty (pl : PriceLevel) : Int :=
  pl.orders.foldl (fun acc o => acc + o.remainingQty) 0

/-- orderbook.Book. `orderIndex` is the key set of Go's
map[uint64]*Order; the pointer targets live in the levels. -/
structure Book where
  bids : List PriceLevel := []
  asks : List PriceLevel := []
  orderIndex : List Nat := []
  nextTradeID : Nat := 0
deriving Repr, DecidableEq

/-- orderbook.New. -/
def Book.new : Book := {}

/-- min64 from book.go. -/
def min64 (a b : Int) : Int := if a < b then a else b

/-- Go map delete on the modelled key set. -/
def idxDelete (idx : List Nat) (id : Nat) : List Nat :=
  idx.filter (fun k => k ≠ id)

/-- Go map insert on the modelled key set (overwriting an existing key
leaves the key set unchanged). -/
def idxInsert (idx : List Nat) (id : Nat) : List Nat :=
  if idx.contains id then idx else id :: idx

/-- All orders resting on a list of levels, best level first, FIFO
within a level. -/
def flattenOrders : List PriceLevel → List Order
  | [] => []
  | l :: rest => l.orders ++ flattenOrders rest

/-- Ids of all orders resting on a list of levels, in book order. -/
def flattenIds (levels : List PriceLevel) : List Nat :=
  (flattenOrders levels).map (·.id)

/-- All resting orders of a book, bids then asks (the traversal order of
AssertInvariants and of the modelled pointer dereference). -/
def Book.allOrders (b : Book) : List Order :=
  flattenOrders b.bids ++ flattenOrders b.asks

/-- Book.BBO: best bid and offer snapshot. Mid uses Go int64 division;
it is only formed when both prices are positive, where Lean `Int`
division agrees with Go truncation. -/
def Book.bbo (b : Book) : BBO :=
  let bidPrice : Int := match b.bids with | [] => 0 | l :: _ => l.price
  let bidQty : Int := match b.bids with | [] => 0 | l :: _ => l.totalQty
  let askPrice : Int := match b.asks with | [] => 0 | l :: _ => l.price
  let askQty : Int := match b.asks with | [] => 0 | l :: _ => l.totalQty
  let midPrice : Int :=
    if bidPrice > 0 ∧ askPrice > 0 then (bidPrice + askPrice) / 2 else 0
  { bidPrice := bidPrice, bidQty := bidQty, askPrice := askPrice,
    askQty := askQty, midPrice := midPrice }

/-- sort.Search's binary-search loop (Go standard library): narrow
[i, j) while i < j, return the final i. The interval shrinks at every
step, so running it structurally on interval-length fuel computes the
loop's fixpoint (searchGo_fuel below); structural recursion keeps the
definition kernel-reducible. -/
def searchGo (f : Nat → Bool) : Nat → Nat → Nat → Nat
  | 0, i, _ => i
  | fuel + 1, i, j =>
    if i < j then
      let m := (i + j) / 2
      if f m then searchGo f fuel i m else searchGo f fuel (m + 1) j
    else i

/-- sort.Search(n, f). -/
def sortSearch (n : Nat) (f : Nat → Bool) : Nat := searchGo f n 0 n

/-- The result of walking one price level (the inner loop of
Book.match): trades emitted at this level, the level's surviving
orders, the updated order index, trade-id counter and incoming order. -/
structure WalkOut where
  trades : List Trade
  orders : List Order
  idx : List Nat
  tid : Nat
  inc : Order
deriving Repr

/-- The trade record built inside the match loop: passive price, fill
quantity, 1-based queue index i+1; buyer/seller resolved from the
aggressor's side test (Side == Buy). -/
def mkTrade (tid2 : Nat) (incoming resting : Order) (fillQty : Int) (i : Nat)
    (ts : Int) : Trade :=
  let base : Trade :=
    { id := tid2, price := resting.price, qty := fillQty, timestamp := ts,
      passiveOrderId := resting.id, aggressorOrderId := incoming.id,
      restingQueuePos := (i : Int) + 1 }
  if incoming.side = buySide then
    { base with buyOrderId := incoming.id, sellOrderId := resting.id,
                buyTrader := incoming.traderId, sellTrader := resting.traderId }
  else
    { base with sellOrderId := incoming.id, buyOrderId := resting.id,
                sellTrader := incoming.traderId, buyTrader := resting.traderId }

/-- Inner loop of Book.match: walk the FIFO queue of one level.
`kept` mirrors the prefix of the Go slice that survived so far, so the
Go loop index `i` is `kept.length`; a fully filled passive order is
dropped from the slice (the Go code then revisits the same index) and
its id is deleted from the order index. The Go loop re-checks
`incoming.RemainingQty > 0` at each iteration; on exhaustion the
remaining queue is left untouched. -/
def walkLevel (incoming : Order) (kept : List Order) (pending : List Order)
    (idx : List Nat) (tid : Nat) (ts : Int) : WalkOut :=
  match pending with
  | [] => ⟨[], kept, idx, tid, incoming⟩
  | resting :: rest =>
    if incoming.remainingQty > 0 then
      let fillQty := min64 incoming.remainingQty resting.remainingQty
      let inc2 := { incoming with remainingQty := incoming.remainingQty - fillQty }
      let rest2 := { resting with remainingQty := resting.remainingQty - fillQty }
      let trade := mkTrade (tid + 1) incoming resting fillQty kept.length ts
      if rest2.remainingQty ≤ 0 then
        let w := walkLevel inc2 kept rest (idxDelete idx resting.id) (tid + 1) ts
        ⟨trade :: w.trades, w.orders, w.idx, w.tid, w.inc⟩
      else
        let w := walkLevel inc2 (kept ++ [rest2]) rest idx (tid + 1) ts
        ⟨trade :: w.trades, w.orders, w.idx, w.tid, w.inc⟩
    else ⟨[], kept ++ pending, idx, tid, incoming⟩

/-- The result of Book.match on one side: trades, surviving levels,
updated index, trade-id counter and incoming order. -/
structure MatchOut where
  trades : List Trade
  levels : List PriceLevel
  idx : List Nat
  tid : Nat
  inc : Order
deriving Repr

/-- Go's price check that breaks the outer match loop for limit
orders (note it tests Side == Buy and Side == Sell literally). -/
def priceBreak (incoming : Order) (levelPrice : Int) : Bool :=
  incoming.otype = OrderType.limit ∧
    ((incoming.side = buySide ∧ incoming.price < levelPrice) ∨
     (incoming.side = sellSide ∧ incoming.price > levelPrice))

/-- Outer loop of Book.match over the opposite side's levels.
When the walked level still holds orders the Go loop terminates because
the incoming remaining is then ≤ 0 (walkLevel_orders_ne_nil below);
the recursion returns directly in that case, which is extensionally the
same exit. An emptied level is removed and the loop continues. -/
def matchLevels (incoming : Order) (levels : List PriceLevel)
    (idx : List Nat) (tid : Nat) (ts : Int) : MatchOut :=
  match levels with
  | [] => ⟨[], [], idx, tid, incoming⟩
  | level :: rest =>
    if incoming.remainingQty > 0 then
      if priceBreak incoming level.price then ⟨[], level :: rest, idx, tid, incoming⟩
      else
        let w := walkLevel incoming [] level.orders idx tid ts
        match w.orders with
        | [] =>
          let m := matchLevels w.inc rest w.idx w.tid ts
          ⟨w.trades ++ m.trades, m.levels, m.idx, m.tid, m.inc⟩
        | o :: os => ⟨w.trades, { level with orders := o :: os } :: rest, w.idx, w.tid, w.inc⟩
    else ⟨[], level :: rest, idx, tid, incoming⟩

/-- Book.match: pick the opposite side, run the loop, write the side
back. Returns trades, the updated book and the updated incoming
order (Go mutates it through a pointer). -/
def Book.matchIncoming (b : Book) (incoming : Order) (ts : Int) :
    List Trade × Book × Order :=
  if incoming.side = buySide then
    let m := matchLevels incoming b.asks b.orderIndex b.nextTradeID ts
    (m.trades, { b with asks := m.levels, orderIndex := m.idx, nextTradeID := m.tid }, m.inc)
  else
    let m := matchLevels incoming b.bids b.orderIndex b.nextTradeID ts
    (m.trades, { b with bids := m.levels, orderIndex := m.idx, nextTradeID := m.tid }, m.inc)

/-- insertIntoLevels' slice surgery: insert a new level at index n. -/
def insertLevelAt (levels : List PriceLevel) (n : Nat) (x : PriceLevel) : List PriceLevel :=
  levels.take n ++ x :: levels.drop n

/-- Indexing used by the sort.Search predicate (in Go the closure
indexes the slice; indices are always < len there). -/
def levelAt (levels : List PriceLevel) (i : Nat) : PriceLevel :=
  levels.getD i {}

/-- The sort.Search closure of insertIntoLevels. -/
def insertPred (levels : List PriceLevel) (o : Order) (descending : Bool)
    (i : Nat) : Bool :=
  if descending then (levelAt levels i).price ≤ o.price
  else (levelAt levels i).price ≥ o.price

/-- insertIntoLevels (book.go): binary-search the level for the price;
append to an existing level, else splice in a new level. -/
def insertIntoLevels (levels : List PriceLevel) (o : Order) (descending : Bool) :
    List PriceLevel :=
  let idx := sortSearch levels.length (insertPred levels o descending)
  if idx < levels.length then
    if (levelAt levels idx).price = o.price then
      levels.set idx { levelAt levels idx with
        orders := (levelAt levels idx).orders ++ [o] }
    else insertLevelAt levels idx { price := o.price, orders := [o] }
  else insertLevelAt levels idx { price := o.price, orders := [o] }

/-- Book.insert: register in the order index, then insert into the
side chosen by Side == Buy. -/
def Book.insert (b : Book) (o : Order) : Book :=
  let idx2 := idxInsert b.orderIndex o.id
  if o.side = buySide then
    { b with bids := insertIntoLevels b.bids o true, orderIndex := idx2 }
  else
    { b with asks := insertIntoLevels b.asks o false, orderIndex := idx2 }

/-- First removal of the order with the given id from a FIFO queue. -/
def removeFirstId (os : List Order) (id : Nat) : List Order :=
  match os with
  | [] => []
  | x :: xs => if x.id = id then xs else x :: removeFirstId xs id

/-- Book.removeOrder's loop over one side's levels: skip levels whose
price differs, remove the order where found (dropping an emptied
level) and stop; otherwise keep scanning. -/
def removeOrderLoop (levels : List PriceLevel) (o : Order) : List PriceLevel :=
  match levels with
  | [] => []
  | level :: rest =>
    if level.price = o.price then
      if level.orders.any (fun x => x.id = o.id) then
        let os := removeFirstId level.orders o.id
        if os.isEmpty then rest else { level with orders := os } :: rest
      else level :: removeOrderLoop rest o
    else level :: removeOrderLoop rest o

/-- Book.removeOrder. -/
def Book.removeOrder (b : Book) (o : Order) : Book :=
  if o.side = buySide then { b with bids := removeOrderLoop b.bids o }
  else { b with asks := removeOrderLoop b.asks o }

/-- Dereference of an order-index entry: present in the key set, and
the pointer target located among the resting orders (bids scanned
before asks; on well-formed books the id determines the order). -/
def Book.lookupIndex (b : Book) (id : Nat) : Option Order :=
  if b.orderIndex.contains id then b.allOrders.find? (fun o => o.id = id)
  else none

/-- Book.processCancel: look up the target; absent or already filled is
a no-op that still returns a fresh BBO; otherwise zero it, remove it
from its level and delete it from the index. -/
def Book.processCancel (b : Book) (cancel : Order) : List Trade × BBO × Book :=
  match b.lookupIndex cancel.cancelId with
  | none => ([], b.bbo, b)
  | some target =>
    if target.remainingQty ≤ 0 then ([], b.bbo, b)
    else
      let target2 := { target with remainingQty := 0 }
      let b2 := b.removeOrder target2
      let b3 := { b2 with orderIndex := idxDelete b2.orderIndex target2.id }
      ([], b3.bbo, b3)

/-- Book.processLimit: set remaining := qty, match aggressively, rest
any remainder on the book. Also returns the updated incoming order. -/
def Book.processLimit (b : Book) (o : Order) (ts : Int) :
    List Trade × BBO × Book × Order :=
  let o1 := { o with remainingQty := o.qty }
  let r := b.matchIncoming o1 ts
  let b2 := r.2.1
  let o2 := r.2.2
  let b3 := if o2.remainingQty > 0 then b2.insert o2 else b2
  (r.1, b3.bbo, b3, o2)

/-- Book.processMarket: set remaining := qty, sweep; never rests. -/
def Book.processMarket (b : Book) (o : Order) (ts : Int) :
    List Trade × BBO × Book × Order :=
  let o1 := { o with remainingQty := o.qty }
  let r := b.matchIncoming o1 ts
  (r.1, r.2.1.bbo, r.2.1, r.2.2)

/-- Book.ProcessOrder dispatch (the unknown-type panic is unreachable
for the enum carrier). -/
def Book.processOrder (b : Book) (o : Order) (ts : Int) :
    List Trade × BBO × Book × Order :=
  match o.otype with
  | OrderType.limit => b.processLimit o ts
  | OrderType.market => b.processMarket o ts
  | OrderType.cancel =>
    let r := b.processCancel o
    (r.1, r.2.1, r.2.2, o)

/-- Position (1-based) of an order inside the levels of its side,
scanning levels with matching price (Book.QueuePosition's loop). -/
def posInLevels (levels : List PriceLevel) (price : Int) (id : Nat) : Int :=
  match levels with
  | [] => 0
  | level :: rest =>
    if level.price = price then
      match level.orders.findIdx? (fun o => o.id = id) with
      | some i => (i : Int) + 1
      | none => posInLevels rest price id
    else posInLevels rest price id

/-- Book.QueuePosition: 0 when the id is not on the book. -/
def Book.queuePosition (b : Book) (id : Nat) : Int :=
  match b.lookupIndex id with
  | none => 0
  | some o =>
    if o.side = buySide then posInLevels b.bids o.price o.id
    else posInLevels b.asks o.price o.id

/-- Adjacent-pairs check (the `for i := 1; ...` loops of
AssertInvariants). -/
def chainRel (rel : Int → Int → Prop) [DecidableRel rel] : List Int → Bool
  | [] => true
  | [_] => true
  | a :: c :: rest => decide (rel a c) && chainRel rel (c :: rest)

/-- AssertInvariants as a boolean (the Go function panics when any
check fails): bids strictly descending, asks strictly ascending, no
crossed book, no empty level, no resting remaining ≤ 0, order-index
size equals the book's order count. -/
def Book.checkInvariants (b : Book) : Bool :=
  chainRel (fun a c => c < a) (b.bids.map (·.price)) &&
  chainRel (fun a c => a < c) (b.asks.map (·.price)) &&
  (match b.bids, b.asks with
   | bl :: _, al :: _ => decide (bl.price < al.price)
   | _, _ => true) &&
  b.bids.all (fun l => !l.orders.isEmpty) &&
  b.asks.all (fun l => !l.orders.isEmpty) &&
  b.bids.all (fun l => l.orders.all (fun o => decide (0 < o.remainingQty))) &&
  b.asks.all (fun l => l.orders.all (fun o => decide (0 < o.remainingQty))) &&
  decide (b.allOrders.length = b.orderIndex.length)

/-- Process a timestamped order stream in sequence (the book discards
the returned trades/BBO; this drives the invariant claims). -/
def Book.processSeq (b : Book) : List (Order × Int) → Book
  | [] => b
  | (o, ts) :: rest => ((b.processOrder o ts).2.2.1).processSeq rest

/-! ### Event loop (internal/engine/eventloop.go)

The container/heap priority queue is modelled as a list plus a
minimum-extraction step: Less orders by (Timestamp, SeqNo), and since
Schedule assigns strictly increasing sequence numbers the minimum is
unique, so heap pop is extraction of the least element (the leftmost
one is taken on ties, which cannot occur for scheduled events). -/

/-- eventHeap.Less. -/
def eventLess (a b : Event) : Bool :=
  a.timestamp < b.timestamp ∨ (a.timestamp = b.timestamp ∧ a.seqNo < b.seqNo)

/-- Minimum extraction with a running candidate: the candidate `e` is
returned unless something in the queue is strictly before it; the
leftmost minimal element wins ties. -/
def popMinGo (e : Event) : List Event → Event × List Event
  | [] => (e, [])
  | x :: rest =>
    if eventLess (popMinGo x rest).1 e then
      ((popMinGo x rest).1, e :: (popMinGo x rest).2)
    else (e, x :: rest)

/-- Extract a least element under eventLess (leftmost among ties). -/
def popMin : List Event → Option (Event × List Event)
  | [] => none
  | e :: rest => some (popMinGo e rest)

/-- engine.EventLoop state. -/
structure EventLoop where
  queue : List Event := []
  seqNo : Nat := 0
  eventsProcessed : Nat := 0
  currentTime : Int := 0
deriving Repr

/-- EventLoop.Schedule: assign the next sequence number and insert. -/
def EventLoop.schedule (el : EventLoop) (e : Event) : EventLoop :=
  let s := el.seqNo + 1
  { el with seqNo := s, queue := el.queue ++ [{ e with seqNo := s }] }

/-- Schedule a batch in order. -/
def EventLoop.scheduleAll (el : EventLoop) (es : List Event) : EventLoop :=
  es.foldl EventLoop.schedule el

/-- Drain the queue with a handler that emits no new events, returning
the dispatch order (EventLoop.Run with a pure observer). Recursion is
on the queue size. -/
def drainGo : Nat → List Event → List Event
  | 0, _ => []
  | fuel + 1, q =>
    match popMin q with
    | none => []
    | some (e, rest) => e :: drainGo fuel rest

/-- The drain entry point: the queue shrinks by one per pop
(popMin_length below), so queue-size fuel drains completely. -/
def drainQueue (q : List Event) : List Event := drainGo q.length q

/-! ### Latency model (internal/latency)

Go's math/rand generator is abstracted as a deterministic stream of
64-bit words derived from the seed: `stdRandBits` is a concrete
deterministic stand-in for the lagged-Fibonacci bit stream (the range
and determinism properties proved below hold for every stream; only
the concrete jitter values depend on it). Int63 masks the word to 63
bits exactly as rand's Int63 does. -/

/-- A seeded source: a word stream and a position. -/
structure RandSrc where
  bits : Nat → Nat
  pos : Nat := 0

/-- Stand-in for the stdlib generator's word stream (any deterministic
function of the seed works for the claims below; Go's own stream is a
607-word lagged-Fibonacci sequence whose table is not part of this
repository). -/
def stdRandBits (seed : Int) : Nat → Nat :=
  fun i => (seed.natAbs * 6364136223846793005 + i * 1442695040888963407 + 1) % 2 ^ 64

/-- rand.NewSource(seed). -/
def mkRandSrc (seed : Int) : RandSrc := ⟨stdRandBits seed, 0⟩

/-- Source.Int63: next word masked to 63 bits (non-negative). -/
def RandSrc.int63 (r : RandSrc) : Int × RandSrc :=
  ((r.bits r.pos % 2 ^ 63 : Nat), { r with pos := r.pos + 1 })

/-- Rejection loop of rand.Int63n, with bounded retries: Go retries
until a draw is ≤ maxv; after `fuel` rejections we keep the last draw
(the final `% n` still lands in range, so the modelled result can
differ from Go only in which equidistributed value is picked after 64
straight rejections, an event of probability < 2⁻⁶⁴ per call). -/
def int63nLoop (r : RandSrc) (maxv : Int) : Nat → Int × RandSrc
  | 0 => r.int63
  | fuel + 1 =>
    let (v, r2) := r.int63
    if v > maxv then int63nLoop r2 maxv fuel else (v, r2)

/-- rand.Rand.Int63n (n ≤ 0 panics in Go; unreachable here because
Model.Apply guards jitter > 0). -/
def RandSrc.int63n (r : RandSrc) (n : Int) : Int × RandSrc :=
  if n ≤ 0 then (0, r)
  else if n.toNat &&& (n.toNat - 1) = 0 then
    let (v, r2) := r.int63
    ((v.toNat &&& (n.toNat - 1) : Nat), r2)
  else
    let maxv : Int := (2 ^ 63 - 1) - (2 ^ 63 % n)
    let (v, r2) := int63nLoop r maxv 64
    (v % n, r2)

/-- latency.Model. -/
structure Model where
  baseNs : Int
  jitterNs : Int
  rng : RandSrc

/-- latency.NewModel. -/
def NewModel (baseNs jitterNs seed : Int) : Model :=
  ⟨baseNs, jitterNs, mkRandSrc seed⟩

/-- Model.Apply: jitter is drawn only when JitterNs > 0. -/
def Model.apply (m : Model) (decisionTime : Int) : Int × Model :=
  if m.jitterNs > 0 then
    let (j, r2) := m.rng.int63n m.jitterNs
    (decisionTime + m.baseNs + j, { m with rng := r2 })
  else (decisionTime + m.baseNs + 0, m)

/-- Apply over a call sequence (for the determinism clause). -/
def Model.applySeq (m : Model) : List Int → List Int
  | [] => []
  | t :: ts =>
    let (a, m2) := m.apply t
    a :: m2.applySeq ts

/-- latency.MsToNs. -/
def msToNs (ms : Int) : Int := ms * 1000000

/-! ### Metrics collector (internal/metrics/collector.go): mid lookup -/

/-- A BBO history entry (bboSnapshot). -/
structure BboSnap where
  timestamp : Int := 0
  bbo : BBO := {}
deriving Repr, DecidableEq

/-- Indexing for the sort.Search closure over the history. -/
def snapAt (hist : List BboSnap) (i : Nat) : BboSnap :=
  hist.getD i {}

/-- Collector.midAtTime: binary search for the first snapshot after t;
empty history yields 0; when every snapshot is after t the FIRST
snapshot's mid is returned (idx == 0 branch). -/
def midAtTime (hist : List BboSnap) (t : Int) : Int :=
  if hist.isEmpty then 0
  else
    let idx := sortSearch hist.length (fun i => (snapAt hist i).timestamp > t)
    if idx = 0 then (snapAt hist 0).bbo.midPrice
    else (snapAt hist (idx - 1)).bbo.midPrice

/-! ### Spec-transcribed matching algorithm (spec §4.1)

The following definitions are transcribed from the specification's
prose, not from book.go, and are compared with the code's functions in
the C1 refinement theorem. The walk carries the passive's 1-based
index at the moment of fill explicitly, and insertion finds the sorted
position by linear scan ("append to the existing level or create a new
level at the sorted position"), where the code uses sort.Search. -/

/-- Spec: "stop when the resting level's price is worse than the
incoming price (a bid below resting ask, or an ask above resting
bid)". -/
def specWorse (incoming : Order) (levelPrice : Int) : Bool :=
  (incoming.side = buySide ∧ incoming.price < levelPrice) ∨
  (incoming.side = sellSide ∧ incoming.price > levelPrice)

/-- Spec §3 Trade record for a fill: passive's price, fill quantity,
the passive's 1-based index `pos` at the moment of fill; buyer and
seller taken from the two orders by the aggressor's side. -/
def specTrade (tid2 : Nat) (incoming passive : Order) (fill : Int) (pos : Nat)
    (ts : Int) : Trade :=
  let base : Trade :=
    { id := tid2, price := passive.price, qty := fill, timestamp := ts,
      passiveOrderId := passive.id, aggressorOrderId := incoming.id,
      restingQueuePos := (pos : Int) }
  if incoming.side = buySide then
    { base with buyOrderId := incoming.id, sellOrderId := passive.id,
                buyTrader := incoming.traderId, sellTrader := passive.traderId }
  else
    { base with sellOrderId := incoming.id, buyOrderId := passive.id,
                sellTrader := incoming.traderId, buyTrader := passive.traderId }

/-- Spec walk of one level's FIFO queue. `ahead` holds the orders
already walked past that stay on the queue, `pos` is the 1-based index
of the queue head at the moment of fill (earlier fully-filled orders
have been removed, so a surviving order shifts the position by one).
Fill quantity min(incoming.remaining, passive.remaining), trade price
the passive's price; decrement both sides; remove the passive at
remaining zero. -/
def specWalkQueue (incoming : Order) (ahead : List Order) (pos : Nat)
    (queue : List Order) (idx : List Nat) (tid : Nat) (ts : Int) : WalkOut :=
  match queue with
  | [] => ⟨[], ahead, idx, tid, incoming⟩
  | passive :: rest =>
    if incoming.remainingQty ≤ 0 then ⟨[], ahead ++ (passive :: rest), idx, tid, incoming⟩
    else
      let fill := min64 incoming.remainingQty passive.remainingQty
      let inc2 := { incoming with remainingQty := incoming.remainingQty - fill }
      let pas2 := { passive with remainingQty := passive.remainingQty - fill }
      let trade := specTrade (tid + 1) incoming passive fill pos ts
      if pas2.remainingQty ≤ 0 then
        let w := specWalkQueue inc2 ahead pos rest (idxDelete idx passive.id) (tid + 1) ts
        ⟨trade :: w.trades, w.orders, w.idx, w.tid, w.inc⟩
      else
        let w := specWalkQueue inc2 (ahead ++ [pas2]) (pos + 1) rest idx (tid + 1) ts
        ⟨trade :: w.trades, w.orders, w.idx, w.tid, w.inc⟩

/-- Spec traversal of the opposite side from the best level outward:
stop when the incoming quantity is exhausted or the level's price is
worse (limit only); an emptied level is removed; a level that retains
orders ends the traversal. -/
def specMatchLevels (incoming : Order) (levels : List PriceLevel)
    (idx : List Nat) (tid : Nat) (ts : Int) : MatchOut :=
  match levels with
  | [] => ⟨[], [], idx, tid, incoming⟩
  | level :: rest =>
    if incoming.remainingQty ≤ 0 then ⟨[], level :: rest, idx, tid, incoming⟩
    else if incoming.otype = OrderType.limit ∧ specWorse incoming level.price then
      ⟨[], level :: rest, idx, tid, incoming⟩
    else
      let w := specWalkQueue incoming [] 1 level.orders idx tid ts
      match w.orders with
      | [] =>
        let m := specMatchLevels w.inc rest w.idx w.tid ts
        ⟨w.trades ++ m.trades, m.levels, m.idx, m.tid, m.inc⟩
      | o :: os => ⟨w.trades, { level with orders := o :: os } :: rest, w.idx, w.tid, w.inc⟩

/-- Spec insertion: append to the existing level at the order's price,
or create a new level at the sorted position (bids descending, asks
ascending), by linear scan. -/
def specInsertLevels (levels : List PriceLevel) (o : Order) (descending : Bool) :
    List PriceLevel :=
  match levels with
  | [] => [{ price := o.price, orders := [o] }]
  | l :: rest =>
    if l.price = o.price then { l with orders := l.orders ++ [o] } :: rest
    else if (descending ∧ l.price < o.price) ∨ (¬descending ∧ l.price > o.price) then
      { price := o.price, orders := [o] } :: l :: rest
    else l :: specInsertLevels rest o descending

/-- Spec processing of a limit order: set remaining := quantity, match
against the opposite side, rest any remainder at its price. -/
def specProcessLimit (b : Book) (o : Order) (ts : Int) :
    List Trade × BBO × Book × Order :=
  let o1 := { o with remainingQty := o.qty }
  let m :=
    if o1.side = buySide then specMatchLevels o1 b.asks b.orderIndex b.nextTradeID ts
    else specMatchLevels o1 b.bids b.orderIndex b.nextTradeID ts
  let b2 :=
    if o1.side = buySide then
      { b with asks := m.levels, orderIndex := m.idx, nextTradeID := m.tid }
    else { b with bids := m.levels, orderIndex := m.idx, nextTradeID := m.tid }
  let b3 :=
    if m.inc.remainingQty > 0 then
      if m.inc.side = buySide then
        { b2 with bids := specInsertLevels b2.bids m.inc true,
                  orderIndex := idxInsert b2.orderIndex m.inc.id }
      else
        { b2 with asks := specInsertLevels b2.asks m.inc false,
                  orderIndex := idxInsert b2.orderIndex m.inc.id }
    else b2
  (m.trades, b3.bbo, b3, m.inc)

/-- Spec processing of a market order: match; never rests; the
unfilled remainder is discarded. -/
def specProcessMarket (b : Book) (o : Order) (ts : Int) :
    List Trade × BBO × Book × Order :=
  let o1 := { o with remainingQty := o.qty }
  let m :=
    if o1.side = buySide then specMatchLevels o1 b.asks b.orderIndex b.nextTradeID ts
    else specMatchLevels o1 b.bids b.orderIndex b.nextTradeID ts
  let b2 :=
    if o1.side = buySide then
      { b with asks := m.levels, orderIndex := m.idx, nextTradeID := m.tid }
    else { b with bids := m.levels, orderIndex := m.idx, nextTradeID := m.tid }
  (m.trades, b2.bbo, b2, m.inc)

/-! ### Event log codec (internal/eventlog, domain JSON marshalling)

The byte level is abstracted: a log is the list of JSON documents on
its lines (json.Marshal emits no newline, so one document per line).
JSON numbers are exact rationals: Go emits int64/uint64 as integer
literals and float64 in a shortest form that round-trips exactly. The
enum codecs mirror Side/OrderType/EventType MarshalJSON/UnmarshalJSON:
writers emit the uppercase name (any Side other than Buy prints
"SELL"), readers also accept the numeric form and reject unknown
tokens. -/

/-- A JSON value. -/
inductive JVal where
  | jnull
  | jnum (q : Rat)
  | jstr (s : String)
  | jobj (fields : List (String × JVal))

/-- Side.MarshalJSON via Side.String. -/
def sideMarshal (s : Int) : JVal :=
  JVal.jstr (if s = 1 then "BUY" else "SELL")

/-- Side.UnmarshalJSON (trims quotes from the raw token, so the string
and numeric forms are both accepted). -/
def sideUnmarshal (v : JVal) : Option Int :=
  match v with
  | JVal.jstr "BUY" => some 1
  | JVal.jstr "1" => some 1
  | JVal.jstr "SELL" => some (-1)
  | JVal.jstr "-1" => some (-1)
  | JVal.jnum q => if q = 1 then some 1 else if q = -1 then some (-1) else none
  | _ => none

/-- OrderType.MarshalJSON via String(). -/
def otypeMarshal (t : OrderType) : JVal :=
  JVal.jstr (match t with
    | OrderType.limit => "LIMIT"
    | OrderType.market => "MARKET"
    | OrderType.cancel => "CANCEL")

/-- OrderType.UnmarshalJSON. -/
def otypeUnmarshal (v : JVal) : Option OrderType :=
  match v with
  | JVal.jstr "LIMIT" => some OrderType.limit
  | JVal.jstr "0" => some OrderType.limit
  | JVal.jstr "MARKET" => some OrderType.market
  | JVal.jstr "1" => some OrderType.market
  | JVal.jstr "CANCEL" => some OrderType.cancel
  | JVal.jstr "2" => some OrderType.cancel
  | JVal.jnum q =>
    if q = 0 then some OrderType.limit
    else if q = 1 then some OrderType.market
    else if q = 2 then some OrderType.cancel
    else none
  | _ => none

/-- EventType.MarshalJSON via String(). -/
def etypeMarshal (t : EventType) : JVal :=
  JVal.jstr (match t with
    | EventType.orderAccepted => "ORDER_ACCEPTED"
    | EventType.orderCanceled => "ORDER_CANCELED"
    | EventType.tradeExecuted => "TRADE_EXECUTED"
    | EventType.bboUpdate => "BBO_UPDATE"
    | EventType.signal => "SIGNAL"
    | EventType.reQuote => "REQUOTE"
    | EventType.simStart => "SIM_START"
    | EventType.simEnd => "SIM_END")

/-- EventType.UnmarshalJSON. -/
def etypeUnmarshal (v : JVal) : Option EventType :=
  match v with
  | JVal.jstr "ORDER_ACCEPTED" => some EventType.orderAccepted
  | JVal.jstr "0" => some EventType.orderAccepted
  | JVal.jstr "ORDER_CANCELED" => some EventType.orderCanceled
  | JVal.jstr "1" => some EventType.orderCanceled
  | JVal.jstr "TRADE_EXECUTED" => some EventType.tradeExecuted
  | JVal.jstr "2" => some EventType.tradeExecuted
  | JVal.jstr "BBO_UPDATE" => some EventType.bboUpdate
  | JVal.jstr "3" => some EventType.bboUpdate
  | JVal.jstr "SIGNAL" => some EventType.signal
  | JVal.jstr "4" => some EventType.signal
  | JVal.jstr "REQUOTE" => some EventType.reQuote
  | JVal.jstr "5" => some EventType.reQuote
  | JVal.jstr "SIM_START" => some EventType.simStart
  | JVal.jstr "6" => some EventType.simStart
  | JVal.jstr "SIM_END" => some EventType.simEnd
  | JVal.jstr "7" => some EventType.simEnd
  | JVal.jnum q =>
    if q = 0 then some EventType.orderAccepted
    else if q = 1 then some EventType.orderCanceled
    else if q = 2 then some EventType.tradeExecuted
    else if q = 3 then some EventType.bboUpdate
    else if q = 4 then some EventType.signal
    else if q = 5 then some EventType.reQuote
    else if q = 6 then some EventType.simStart
    else if q = 7 then some EventType.simEnd
    else none
  | _ => none

/-- Unmarshal a JSON number into an unsigned integer field. -/
def decNat (v : JVal) : Option Nat :=
  match v with
  | JVal.jnum q => if q.den = 1 ∧ 0 ≤ q.num then some q.num.toNat else none
  | _ => none

/-- Unmarshal a JSON number into a signed integer field. -/
def decInt (v : JVal) : Option Int :=
  match v with
  | JVal.jnum q => if q.den = 1 then some q.num else none
  | _ => none

/-- Unmarshal a JSON number into a float64 field (modelled exactly). -/
def decRat (v : JVal) : Option Rat :=
  match v with
  | JVal.jnum q => some q
  | _ => none

/-- Unmarshal a JSON string field. -/
def decStr (v : JVal) : Option String :=
  match v with
  | JVal.jstr s => some s
  | _ => none

/-- A struct field during unmarshalling: a missing key leaves the Go
zero value, a present key must decode. -/
def decField (fs : List (String × JVal)) (key : String)
    (dec : JVal → Option α) (dflt : α) : Option α :=
  match fs.lookup key with
  | none => some dflt
  | some v => dec v

/-- Null test on a JSON value. -/
def JVal.isNull : JVal → Bool
  | JVal.jnull => true
  | _ => false

/-- A pointer payload during unmarshalling: missing or null stays nil. -/
def decPayload (fs : List (String × JVal)) (key : String)
    (dec : JVal → Option α) : Option (Option α) :=
  match fs.lookup key with
  | none => some none
  | some v => if v.isNull then some none else (dec v).map some

/-- json.Marshal of domain.Order (struct field order; omitempty on
cancel_id and queue_pos). -/
def encodeOrder (o : Order) : JVal :=
  JVal.jobj
    ([("id", JVal.jnum (o.id : Rat)), ("trader_id", JVal.jstr o.traderId),
      ("side", sideMarshal o.side), ("type", otypeMarshal o.otype),
      ("price", JVal.jnum (o.price : Rat)), ("qty", JVal.jnum (o.qty : Rat)),
      ("remaining_qty", JVal.jnum (o.remainingQty : Rat)),
      ("decision_time", JVal.jnum (o.decisionTime : Rat)),
      ("arrival_time", JVal.jnum (o.arrivalTime : Rat)),
      ("seq_no", JVal.jnum (o.seqNo : Rat))] ++
     (if o.cancelId = 0 then [] else [("cancel_id", JVal.jnum (o.cancelId : Rat))]) ++
     (if o.queuePos = 0 then [] else [("queue_pos", JVal.jnum (o.queuePos : Rat))]))

/-- json.Unmarshal into domain.Order. -/
def decodeOrder (v : JVal) : Option Order :=
  match v with
  | JVal.jobj fs => do
    let id ← decField fs "id" decNat 0
    let traderId ← decField fs "trader_id" decStr ""
    let side ← decField fs "side" sideUnmarshal 0
    let otype ← decField fs "type" otypeUnmarshal OrderType.limit
    let price ← decField fs "price" decInt 0
    let qty ← decField fs "qty" decInt 0
    let remainingQty ← decField fs "remaining_qty" decInt 0
    let decisionTime ← decField fs "decision_time" decInt 0
    let arrivalTime ← decField fs "arrival_time" decInt 0
    let seqNo ← decField fs "seq_no" decNat 0
    let cancelId ← decField fs "cancel_id" decNat 0
    let queuePos ← decField fs "queue_pos" decInt 0
    pure { id := id, traderId := traderId, side := side, otype := otype,
           price := price, qty := qty, remainingQty := remainingQty,
           decisionTime := decisionTime, arrivalTime := arrivalTime,
           seqNo := seqNo, cancelId := cancelId, queuePos := queuePos }
  | _ => none

/-- json.Marshal of domain.Trade (omitempty on passive_order_id,
aggressor_order_id, resting_queue_pos). -/
def encodeTrade (t : Trade) : JVal :=
  JVal.jobj
    ([("id", JVal.jnum (t.id : Rat)), ("buy_order_id", JVal.jnum (t.buyOrderId : Rat)),
      ("sell_order_id", JVal.jnum (t.sellOrderId : Rat)),
      ("buy_trader", JVal.jstr t.buyTrader), ("sell_trader", JVal.jstr t.sellTrader),
      ("price", JVal.jnum (t.price : Rat)), ("qty", JVal.jnum (t.qty : Rat)),
      ("timestamp", JVal.jnum (t.timestamp : Rat))] ++
     (if t.passiveOrderId = 0 then []
      else [("passive_order_id", JVal.jnum (t.passiveOrderId : Rat))]) ++
     (if t.aggressorOrderId = 0 then []
      else [("aggressor_order_id", JVal.jnum (t.aggressorOrderId : Rat))]) ++
     (if t.restingQueuePos = 0 then []
      else [("resting_queue_pos", JVal.jnum (t.restingQueuePos : Rat))]))

/-- json.Unmarshal into domain.Trade. -/
def decodeTrade (v : JVal) : Option Trade :=
  match v with
  | JVal.jobj fs => do
    let id ← decField fs "id" decNat 0
    let buyOrderId ← decField fs "buy_order_id" decNat 0
    let sellOrderId ← decField fs "sell_order_id" decNat 0
    let buyTrader ← decField fs "buy_trader" decStr ""
    let sellTrader ← decField fs "sell_trader" decStr ""
    let price ← decField fs "price" decInt 0
    let qty ← decField fs "qty" decInt 0
    let timestamp ← decField fs "timestamp" decInt 0
    let passiveOrderId ← decField fs "passive_order_id" decNat 0
    let aggressorOrderId ← decField fs "aggressor_order_id" decNat 0
    let restingQueuePos ← decField fs "resting_queue_pos" decInt 0
    pure { id := id, buyOrderId := buyOrderId, sellOrderId := sellOrderId,
           buyTrader := buyTrader, sellTrader := sellTrader, price := price,
           qty := qty, timestamp := timestamp, passiveOrderId := passiveOrderId,
           aggressorOrderId := aggressorOrderId, restingQueuePos := restingQueuePos }
  | _ => none

/-- json.Marshal of domain.BBO. -/
def encodeBBO (b : BBO) : JVal :=
  JVal.jobj
    [("bid_price", JVal.jnum (b.bidPrice : Rat)), ("bid_qty", JVal.jnum (b.bidQty : Rat)),
     ("ask_price", JVal.jnum (b.askPrice : Rat)), ("ask_qty", JVal.jnum (b.askQty : Rat)),
     ("mid_price", JVal.jnum (b.midPrice : Rat))]

/-- json.Unmarshal into domain.BBO. -/
def decodeBBO (v : JVal) : Option BBO :=
  match v with
  | JVal.jobj fs => do
    let bidPrice ← decField fs "bid_price" decInt 0
    let bidQty ← decField fs "bid_qty" decInt 0
    let askPrice ← decField fs "ask_price" decInt 0
    let askQty ← decField fs "ask_qty" decInt 0
    let midPrice ← decField fs "mid_price" decInt 0
    pure { bidPrice := bidPrice, bidQty := bidQty, askPrice := askPrice,
           askQty := askQty, midPrice := midPrice }
  | _ => none

/-- json.Marshal of domain.Signal. -/
def encodeSignal (s : Signal) : JVal :=
  JVal.jobj [("value", JVal.jnum s.value), ("mid_price", JVal.jnum (s.midPrice : Rat))]

/-- json.Unmarshal into domain.Signal. -/
def decodeSignal (v : JVal) : Option Signal :=
  match v with
  | JVal.jobj fs => do
    let value ← decField fs "value" decRat 0
    let midPrice ← decField fs "mid_price" decInt 0
    pure { value := value, midPrice := midPrice }
  | _ => none

/-- json.Marshal of domain.Event (trader_id and the four payload
pointers carry omitempty). -/
def encodeEvent (e : Event) : JVal :=
  JVal.jobj
    ([("seq_no", JVal.jnum (e.seqNo : Rat)), ("timestamp", JVal.jnum (e.timestamp : Rat)),
      ("type", etypeMarshal e.etype)] ++
     (if e.traderId = "" then [] else [("trader_id", JVal.jstr e.traderId)]) ++
     (match e.order with | none => [] | some o => [("order", encodeOrder o)]) ++
     (match e.trade with | none => [] | some t => [("trade", encodeTrade t)]) ++
     (match e.bbo with | none => [] | some b => [("bbo", encodeBBO b)]) ++
     (match e.sig with | none => [] | some s => [("signal", encodeSignal s)]))

/-- json.Unmarshal into domain.Event. -/
def decodeEvent (v : JVal) : Option Event :=
  match v with
  | JVal.jobj fs => do
    let seqNo ← decField fs "seq_no" decNat 0
    let timestamp ← decField fs "timestamp" decInt 0
    let etype ← decField fs "type" etypeUnmarshal EventType.orderAccepted
    let traderId ← decField fs "trader_id" decStr ""
    let order ← decPayload fs "order" decodeOrder
    let trade ← decPayload fs "trade" decodeTrade
    let bbo ← decPayload fs "bbo" decodeBBO
    let sig ← decPayload fs "signal" decodeSignal
    pure { seqNo := seqNo, timestamp := timestamp, etype := etype,
           traderId := traderId, order := order, trade := trade,
           bbo := bbo, sig := sig }
  | _ => none

/-- Writer.Write over a run: one JSON document per log line. -/
def writeLog (events : List Event) : List JVal := events.map encodeEvent

/-- Reader.ReadAll: decode every line; a malformed line is an error. -/
def readLog (lines : List JVal) : Option (List Event) := lines.mapM decodeEvent

/-! ### Trader agent and strategy (internal/trader)

Agents hold their active orders as a key set; Go's map values are
pointers into the matcher's resting orders, so a dereference reads the
order's current state from the book (after a full fill the shared
object's remaining is 0 and the order is no longer resident, which the
dereference maps to removal; the two views agree at every point the
agent code runs on reachable states). -/

/-- trader.Strategy. -/
structure Strategy where
  reQuoteIntervalNs : Int
  cancelTimeoutNs : Int
  crossThreshold : Rat
  targetQty : Int
  lastSignalValue : Rat := 0
  lastActionTime : Int := 0
deriving Repr

/-- trader.NewStrategy defaults. -/
def newStrategy : Strategy :=
  { reQuoteIntervalNs := msToNs 100, cancelTimeoutNs := msToNs 500,
    crossThreshold := 1, targetQty := 5 }

/-- trader.Agent (rng is owned but unused by Decide). -/
structure Agent where
  id : String
  latency : Model
  strat : Strategy
  rng : RandSrc
  idBase : Nat
  nextID : Nat
  activeOrders : List Nat

/-- trader.NewAgent. -/
def newAgent (id : String) (lat : Model) (seed : Int) (idBase : Nat) : Agent :=
  { id := id, latency := lat, strat := newStrategy, rng := mkRandSrc seed,
    idBase := idBase, nextID := idBase, activeOrders := [] }

/-- Agent.allocateID. -/
def Agent.allocateID (a : Agent) : Nat × Agent :=
  (a.nextID + 1, { a with nextID := a.nextID + 1 })

/-- Dereference of an order pointer shared with the matcher. -/
def derefOrder (book : Book) (id : Nat) : Option Order :=
  book.allOrders.find? (fun o => o.id = id)

/-- Agent.OnFill: drop a fully filled order from the active set (the
shared object's remaining was already decremented by the matcher; a
missing book entry means it reached zero and was removed). -/
def Agent.onFill (a : Agent) (book : Book) (orderID : Nat) : Agent :=
  if a.activeOrders.contains orderID then
    match derefOrder book orderID with
    | some o =>
      if o.remainingQty ≤ 0 then
        { a with activeOrders := idxDelete a.activeOrders orderID }
      else a
    | none => { a with activeOrders := idxDelete a.activeOrders orderID }
  else a

/-- Agent.OnCancelAck: unconditional removal. -/
def Agent.onCancelAck (a : Agent) (orderID : Nat) : Agent :=
  { a with activeOrders := idxDelete a.activeOrders orderID }

/-- Ascending id sort (Go sorts the collected map keys with
sort.Slice; keys are distinct so the sorted result is unique). -/
def insertAsc (x : Nat) : List Nat → List Nat
  | [] => [x]
  | y :: ys => if x ≤ y then x :: y :: ys else y :: insertAsc x ys

/-- Insertion sort for the active-id iteration order. -/
def sortAsc : List Nat → List Nat
  | [] => []
  | x :: xs => insertAsc x (sortAsc xs)

/-- Stale-order cancellation sweep of Strategy.Decide (step 1):
iterate active ids ascending, emit a Cancel for every order resting
longer than the timeout. The emitted Cancel leaves Side at its zero
value, as the Go literal does. -/
def cancelSweep (a : Agent) (book : Book) (currentTime : Int) :
    List Nat → List Order × Agent
  | [] => ([], a)
  | id :: rest =>
    match derefOrder book id with
    | some o =>
      if currentTime - o.decisionTime > a.strat.cancelTimeoutNs then
        let (cid, a2) := a.allocateID
        let cancelOrder : Order :=
          { id := cid, traderId := a.id, otype := OrderType.cancel,
            cancelId := id, decisionTime := currentTime }
        let (more, a3) := cancelSweep a2 book currentTime rest
        (cancelOrder :: more, a3)
      else cancelSweep a book currentTime rest
    | none => cancelSweep a book currentTime rest

/-- Strategy.Decide (trader.go): cancel stale, cross on strong signal,
otherwise post at best on sides without an active order. -/
def Agent.decide (a : Agent) (sig : Signal) (bbo : BBO) (currentTime : Int)
    (book : Book) : List Order × Agent :=
  let activeIDs := sortAsc a.activeOrders
  let (cancels, a1) := cancelSweep a book currentTime activeIDs
  if sig.value > a1.strat.crossThreshold ∨ sig.value < -a1.strat.crossThreshold then
    let side := if sig.value > 0 then buySide else sellSide
    let (mid, a2) := a1.allocateID
    let marketOrder : Order :=
      { id := mid, traderId := a2.id, side := side, otype := OrderType.market,
        qty := a2.strat.targetQty, decisionTime := currentTime }
    let a3 := { a2 with strat :=
      { a2.strat with lastSignalValue := sig.value, lastActionTime := currentTime } }
    (cancels ++ [marketOrder], a3)
  else
    let hasBid := activeIDs.any (fun id =>
      match derefOrder book id with
      | some o => o.side = buySide
      | none => false)
    let hasAsk := activeIDs.any (fun id =>
      match derefOrder book id with
      | some o => o.side = sellSide
      | none => false)
    let (bidOrders, a2) :=
      if ¬hasBid ∧ bbo.bidPrice > 0 then
        let (oid, a2) := a1.allocateID
        ([({ id := oid, traderId := a2.id, side := buySide,
             otype := OrderType.limit, price := bbo.bidPrice,
             qty := a2.strat.targetQty, decisionTime := currentTime } : Order)], a2)
      else ([], a1)
    let (askOrders, a3) :=
      if ¬hasAsk ∧ bbo.askPrice > 0 then
        let (oid, a3) := a2.allocateID
        ([({ id := oid, traderId := a3.id, side := sellSide,
             otype := OrderType.limit, price := bbo.askPrice,
             qty := a3.strat.targetQty, decisionTime := currentTime } : Order)], a3)
      else ([], a2)
    let a4 := { a3 with strat :=
      { a3.strat with lastSignalValue := sig.value, lastActionTime := currentTime } }
    (cancels ++ bidOrders ++ askOrders, a4)

/-- Agent.OnSignal: no orders when the book is one-sided. -/
def Agent.onSignal (a : Agent) (sig : Signal) (bbo : BBO) (currentTime : Int)
    (book : Book) : List Order × Agent :=
  if bbo.bidPrice = 0 ∨ bbo.askPrice = 0 then ([], a)
  else a.decide sig bbo currentTime book

/-! ### Simulation runner (internal/sim)

File I/O, hashing and the output directory are outside the model; the
log is the in-order list of events handed to Writer.Write. The
scenario generator's batch is a parameter of the run (its construction
does not affect the claims below). Invariant assertion panics are
discharged by the C2 theorem and not modelled as a failure mode. -/

/-- sim.Runner state. -/
structure Runner where
  book : Book
  loop : EventLoop
  fastAgent : Agent
  slowAgent : Agent
  currentBBO : BBO
  trades : List Trade
  log : List Event

/-- Runner.logEvent (write errors are fatal in Go and not modelled). -/
def Runner.logEvent (r : Runner) (e : Event) : Runner :=
  { r with log := r.log ++ [e] }

/-- NewRunner: empty book, fresh loop, agents with latency seeds
seed+1/seed+2 and id seeds seed+3/seed+4, id bases 1000000/2000000. -/
def mkRunner (fastId slowId : String) (fastBase fastJit slowBase slowJit seed : Int) :
    Runner :=
  let fastLat := NewModel (msToNs fastBase) (msToNs fastJit) (seed + 1)
  let slowLat := NewModel (msToNs slowBase) (msToNs slowJit) (seed + 2)
  { book := Book.new, loop := {}, currentBBO := {}, trades := [], log := [],
    fastAgent := newAgent fastId fastLat (seed + 3) 1000000,
    slowAgent := newAgent slowId slowLat (seed + 4) 2000000 }

/-- Runner.handleOrder: match, record queue position for resting
limits, log the accepted order (post-process), register agent limit
orders, log the cancel ack, log each trade and notify fills, log the
post-state BBO. Returns no new events. -/
def Runner.handleOrder (r : Runner) (event : Event) : Runner × List Event :=
  match event.order with
  | none => (r, [])
  | some order =>
    let p := r.book.processOrder order event.timestamp
    let trades := p.1
    let bbo := p.2.1
    let book2 := p.2.2.1
    let o2 := p.2.2.2
    let o3 :=
      if order.otype = OrderType.limit ∧ o2.remainingQty > 0 then
        { o2 with queuePos := book2.queuePosition o2.id }
      else o2
    let r1 := { r with book := book2 }
    let r2 := r1.logEvent { event with order := some o3 }
    let r3 :=
      if o3.otype = OrderType.limit then
        if o3.traderId = r2.fastAgent.id then
          { r2 with fastAgent :=
            { r2.fastAgent with activeOrders := idxInsert r2.fastAgent.activeOrders o3.id } }
        else if o3.traderId = r2.slowAgent.id then
          { r2 with slowAgent :=
            { r2.slowAgent with activeOrders := idxInsert r2.slowAgent.activeOrders o3.id } }
        else r2
      else r2
    let r4 :=
      if o3.otype = OrderType.cancel then
        let r4a := r3.logEvent
          { timestamp := event.timestamp, etype := EventType.orderCanceled,
            order := some o3 }
        if o3.traderId = r4a.fastAgent.id then
          { r4a with fastAgent := r4a.fastAgent.onCancelAck o3.cancelId }
        else if o3.traderId = r4a.slowAgent.id then
          { r4a with slowAgent := r4a.slowAgent.onCancelAck o3.cancelId }
        else r4a
      else r3
    let r5 := trades.foldl (fun acc t =>
      let acc1 := { acc with trades := acc.trades ++ [t] }
      let acc2 := acc1.logEvent
        { timestamp := event.timestamp, etype := EventType.tradeExecuted,
          trade := some t }
      let acc3 :=
        if t.buyTrader = acc2.fastAgent.id then
          { acc2 with fastAgent := acc2.fastAgent.onFill acc2.book t.buyOrderId }
        else if t.buyTrader = acc2.slowAgent.id then
          { acc2 with slowAgent := acc2.slowAgent.onFill acc2.book t.buyOrderId }
        else acc2
      if t.sellTrader = acc3.fastAgent.id then
        { acc3 with fastAgent := acc3.fastAgent.onFill acc3.book t.sellOrderId }
      else if t.sellTrader = acc3.slowAgent.id then
        { acc3 with slowAgent := acc3.slowAgent.onFill acc3.book t.sellOrderId }
      else acc3) r4
    let r6 := { r5 with currentBBO := bbo }
    let r7 := r6.logEvent
      { timestamp := event.timestamp, etype := EventType.bboUpdate, bbo := some bbo }
    (r7, [])

/-- Schedule the orders an agent emitted: stamp the latency-adjusted
arrival time and wrap each as a future OrderAccepted event. -/
def scheduleAgentOrders (lat : Model) (orders : List Order) :
    List Event × Model :=
  match orders with
  | [] => ([], lat)
  | o :: rest =>
    let (arrival, lat2) := lat.apply o.decisionTime
    let o2 := { o with arrivalTime := arrival }
    let e : Event :=
      { timestamp := arrival, etype := EventType.orderAccepted, order := some o2 }
    let (more, lat3) := scheduleAgentOrders lat2 rest
    (e :: more, lat3)

/-- Runner.handleSignal: stamp the mid, log the signal, deliver to the
fast then the slow agent, schedule their responses at their
latency-adjusted arrival times. -/
def Runner.handleSignal (r : Runner) (event : Event) : Runner × List Event :=
  match event.sig with
  | none => (r, [])
  | some sig =>
    let sig2 := { sig with midPrice := r.currentBBO.midPrice }
    let r1 := r.logEvent { event with sig := some sig2 }
    let (fastOrders, fa1) :=
      r1.fastAgent.onSignal sig2 r1.currentBBO event.timestamp r1.book
    let (fastEvents, fastLat2) := scheduleAgentOrders fa1.latency fastOrders
    let r2 := { r1 with fastAgent := { fa1 with latency := fastLat2 } }
    let (slowOrders, sa1) :=
      r2.slowAgent.onSignal sig2 r2.currentBBO event.timestamp r2.book
    let (slowEvents, slowLat2) := scheduleAgentOrders sa1.latency slowOrders
    let r3 := { r2 with slowAgent := { sa1 with latency := slowLat2 } }
    (r3, fastEvents ++ slowEvents)

/-- Runner.handleReQuote: skip on a one-sided book, deliver a neutral
signal to the named agent, schedule the responses. Nothing is
logged. -/
def Runner.handleReQuote (r : Runner) (event : Event) : Runner × List Event :=
  if r.currentBBO.bidPrice = 0 ∨ r.currentBBO.askPrice = 0 then (r, [])
  else
    let neutral : Signal := { value := 0, midPrice := r.currentBBO.midPrice }
    if event.traderId = r.fastAgent.id then
      let (orders, fa1) :=
        r.fastAgent.onSignal neutral r.currentBBO event.timestamp r.book
      let (events, lat2) := scheduleAgentOrders fa1.latency orders
      ({ r with fastAgent := { fa1 with latency := lat2 } }, events)
    else if event.traderId = r.slowAgent.id then
      let (orders, sa1) :=
        r.slowAgent.onSignal neutral r.currentBBO event.timestamp r.book
      let (events, lat2) := scheduleAgentOrders sa1.latency orders
      ({ r with slowAgent := { sa1 with latency := lat2 } }, events)
    else (r, [])

/-- Runner.handleEvent dispatch. -/
def Runner.handleEvent (r : Runner) (event : Event) : Runner × List Event :=
  match event.etype with
  | EventType.orderAccepted => r.handleOrder event
  | EventType.signal => r.handleSignal event
  | EventType.reQuote => r.handleReQuote event
  | EventType.simStart => (r.logEvent event, [])
  | EventType.simEnd => (r.logEvent event, [])
  | _ => (r, [])

/-- One iteration of EventLoop.Run under the runner's handler: pop the
(timestamp, seqno)-least event, dispatch, schedule the emissions. -/
def runnerStep (r : Runner) : Option Runner :=
  match popMin r.loop.queue with
  | none => none
  | some (event, rest) =>
    let loop0 := r.loop
    let loop1 := { loop0 with
      queue := rest
      currentTime := event.timestamp
      eventsProcessed := loop0.eventsProcessed + 1 }
    let (r2, newEvents) := Runner.handleEvent { r with loop := loop1 } event
    some { r2 with loop := r2.loop.scheduleAll newEvents }

/-- EventLoop.Run to exhaustion, fuel-bounded (agent emissions are
OrderAccepted events which emit nothing further, so the drain
terminates; every claim below holds for every fuel value). -/
def runnerDrain : Nat → Runner → Runner
  | 0, r => r
  | fuel + 1, r =>
    match runnerStep r with
    | none => r
    | some r2 => runnerDrain fuel r2

/-- The re-quote schedule of Runner.Run: every multiple of the
interval strictly below the duration. -/
def reQuoteTimes (interval duration : Int) : List Int :=
  if 0 < interval then
    (List.range ((duration - 1) / interval).toNat).map (fun k => interval * (k + 1))
  else []

/-- Runner.Run: log SimStart at t=0, schedule the generated background
events, the per-agent re-quote ticks and the SimEnd marker, then drain
the loop. -/
def runnerRun (r : Runner) (bg : List Event) (duration : Int) (fuel : Nat) : Runner :=
  let r1 := r.logEvent { timestamp := 0, etype := EventType.simStart }
  let r2 := { r1 with loop := r1.loop.scheduleAll bg }
  let rqInterval := r2.fastAgent.strat.reQuoteIntervalNs
  let r3 := (reQuoteTimes rqInterval duration).foldl (fun acc t =>
    let l1 := acc.loop.schedule
      { timestamp := t, etype := EventType.reQuote, traderId := acc.fastAgent.id }
    let l2 := l1.schedule
      { timestamp := t, etype := EventType.reQuote, traderId := acc.slowAgent.id }
    { acc with loop := l2 }) r2
  let endEvent : Event := { timestamp := duration, etype := EventType.simEnd }
  let r4 := { r3 with loop := r3.loop.schedule endEvent }
  runnerDrain fuel r4

/-! ### Measures and concrete instances used by the theorems -/

/-- Total quantity of a trade list. -/
def tradesQty (ts : List Trade) : Int := (ts.map (·.qty)).sum

/-- Total remaining quantity of an order list. -/
def ordersQty (os : List Order) : Int := (os.map (·.remainingQty)).sum

/-- Total resting volume of a level list. -/
def levelsQty (ls : List PriceLevel) : Int := ordersQty (flattenOrders ls)

/-- The side an incoming order is matched against (asks for Buy,
bids otherwise). -/
def Book.matchedVolume (b : Book) (side : Int) : Int :=
  if side = buySide then levelsQty b.asks else levelsQty b.bids

/-- The level list an incoming order is matched against (asks for Buy,
bids otherwise). -/
def Book.matchedLevels (b : Book) (side : Int) : List PriceLevel :=
  if side = buySide then b.asks else b.bids

/-- Remaining quantity resting under a given order id in a queue. -/
def ordersRemAt (os : List Order) (i : Nat) : Int :=
  ordersQty (os.filter (fun o => o.id = i))

/-- Remaining quantity resting under a given order id on a level
list. -/
def levelsRemAt (ls : List PriceLevel) (i : Nat) : Int :=
  ordersRemAt (flattenOrders ls) i

/-- Total quantity of the trades naming a given passive order id. -/
def passiveQtyAt (trs : List Trade) (i : Nat) : Int :=
  tradesQty (trs.filter (fun t => t.passiveOrderId = i))

/-- Price of the first level of a side (0 when empty, the BBO
convention of book.go). -/
def headPrice (levels : List PriceLevel) : Int :=
  match levels with
  | [] => 0
  | l :: _ => l.price

/-- One side's level-content invariant: no empty level; every resting
order carries its level's price, satisfies the side predicate and has
positive remaining quantity. -/
def levelsWF (P : Order → Prop) (levels : List PriceLevel) : Prop :=
  ∀ l ∈ levels, l.orders ≠ [] ∧
    ∀ x ∈ l.orders, x.price = l.price ∧ P x ∧ 0 < x.remainingQty

/-- Uncrossed top of book: best bid strictly below best ask whenever
both sides are non-empty. -/
def crossOK (bids asks : List PriceLevel) : Prop :=
  bids = [] ∨ asks = [] ∨ headPrice bids < headPrice asks

/-- The order-book invariant maintained by book.go: strictly sorted
sides, uncrossed top of book, well-formed level contents (bids hold
Buy orders, asks hold non-Buy orders), globally distinct resting order
ids, and an order index holding exactly the resting ids. -/
def Book.WF (b : Book) : Prop :=
  List.Pairwise (fun a c => c.price < a.price) b.bids ∧
  List.Pairwise (fun a c => a.price < c.price) b.asks ∧
  crossOK b.bids b.asks ∧
  levelsWF (fun x => x.side = buySide) b.bids ∧
  levelsWF (fun x => ¬ x.side = buySide) b.asks ∧
  (b.allOrders.map (fun x => x.id)).Nodup ∧
  b.orderIndex.Perm (b.allOrders.map (fun x => x.id))

/-- In-place removal of an order id from a level list: the id's order
leaves its level's queue and an emptied level disappears; every other
order, level and relative position is untouched. -/
def eraseIdLevels (levels : List PriceLevel) (i : Nat) : List PriceLevel :=
  (levels.map
      (fun l => { l with orders := l.orders.filter (fun x => ¬ x.id = i) })).filter
    (fun l => !l.orders.isEmpty)

instance (P : Order → Prop) [DecidablePred P] (levels : List PriceLevel) :
    Decidable (levelsWF P levels) := by
  unfold levelsWF; exact inferInstance

instance (bids asks : List PriceLevel) : Decidable (crossOK bids asks) := by
  unfold crossOK; exact inferInstance

instance (b : Book) : Decidable b.WF := by
  unfold Book.WF; exact inferInstance

/-- Expected sequence-number assignment of a schedule batch:
consecutive numbers starting at s+1 in schedule order. -/
def assignSeqs (s : Nat) : List Event → List Event
  | [] => []
  | e :: rest => { e with seqNo := s + 1 } :: assignSeqs (s + 1) rest

/-- Strict (timestamp, seq-no) lexicographic dispatch order. -/
def dispatchBefore (a b : Event) : Prop :=
  a.timestamp < b.timestamp ∨ (a.timestamp = b.timestamp ∧ a.seqNo < b.seqNo)

/-- The latest-snapshot-at-or-before relation used to state the mid
lookup claim: index j is the largest index whose snapshot is at or
before t. -/
def latestAtOrBefore (hist : List BboSnap) (t : Int) (j : Nat) : Prop :=
  (snapAt hist j).timestamp ≤ t ∧
    ∀ k, k < hist.length → (snapAt hist k).timestamp ≤ t → k ≤ j

/-- A resting sell used by concrete witnesses. -/
def wSell (i : Nat) (q p : Int) : Order :=
  { id := i, traderId := "background", side := sellSide,
    otype := OrderType.limit, price := p, qty := q }

/-- A resting buy used by concrete witnesses. -/
def wBuy (i : Nat) (q p : Int) : Order :=
  { id := i, traderId := "background", side := buySide,
    otype := OrderType.limit, price := p, qty := q }

/-- A market buy used by concrete witnesses. -/
def wBuyMkt (i : Nat) (q : Int) : Order :=
  { id := i, traderId := "background", side := buySide,
    otype := OrderType.market, qty := q }

/-- A concrete two-sided book used by several witnesses: one bid at 99
(qty 4) and two asks at 100 (qty 10 then 6). -/
def witBook : Book :=
  Book.new.processSeq
    [(wSell 1 10 100, 0), (wSell 2 6 100, 0), (wBuy 3 4 99, 0)]

/-- A concrete BBO history used by the C8 witness. -/
def witHist : List BboSnap :=
  [{ timestamp := 5, bbo := { midPrice := 7 } },
   { timestamp := 9, bbo := { midPrice := 8 } }]

/-- The event whose Cancel payload breaks the log round trip: its
order's Side is the zero value, which marshals as "SELL". -/
def cancelAckEvent : Event :=
  { seqNo := 4, timestamp := 11, etype := EventType.orderAccepted,
    order := some { id := 10, otype := OrderType.cancel, cancelId := 1 } }

/-- The background batch of the concrete run used against claim C3:
a resting sell then a crossing market buy. -/
def cexBatch : List Event :=
  [{ timestamp := 1, etype := EventType.orderAccepted, order := some (wSell 1 10 100) },
   { timestamp := 2, etype := EventType.orderAccepted, order := some (wBuyMkt 2 4) }]

/-- The concrete runner of the C3 counterexample (calm-config trader
latencies, seed 42). -/
def cexRun : Runner :=
  runnerRun (mkRunner "fast" "slow" 1 0 50 10 42) cexBatch 50 100

/-! # Theorems -/

/-- min64 is the minimum. -/
theorem min64_le_left (a b : Int) : min64 a b ≤ a := by
  unfold min64; split <;> omega

theorem min64_le_right (a b : Int) : min64 a b ≤ b := by
  unfold min64; split <;> omega

/-! ### Claim C6: cancel of an unknown or already-filled id is a
silent no-op that still returns a fresh BBO snapshot. -/

/-- C6: if the cancel target is absent from the order index (the
lookup fails) or the located target is already fully filled, then
processCancel produces no trades, leaves the book (levels and order
index) unchanged, and returns the book's current BBO snapshot. -/
theorem claim_C6 (b : Book) (c : Order)
    (h : ∀ t ∈ b.lookupIndex c.cancelId, t.remainingQty ≤ 0) :
    b.processCancel c = ([], b.bbo, b) := by
  unfold Book.processCancel
  cases hl : b.lookupIndex c.cancelId with
  | none => rfl
  | some t =>
    have ht : t.remainingQty ≤ 0 := h t (by rw [hl]; rfl)
    simp [ht]

/-- C6 witness: cancelling the unknown id 7 on the concrete book. -/
theorem claim_C6_witness :
    (∀ t ∈ witBook.lookupIndex 7, t.remainingQty ≤ 0) ∧
      witBook.processCancel { otype := OrderType.cancel, cancelId := 7 } =
        ([], witBook.bbo, witBook) := by
  refine ⟨by decide, claim_C6 witBook { otype := OrderType.cancel, cancelId := 7 } (by decide)⟩

/-! ### Walk and match bookkeeping lemmas -/

theorem tradesQty_nil : tradesQty [] = 0 := rfl

theorem tradesQty_cons (t : Trade) (ts : List Trade) :
    tradesQty (t :: ts) = t.qty + tradesQty ts := by
  simp [tradesQty]

theorem tradesQty_append (a b : List Trade) :
    tradesQty (a ++ b) = tradesQty a + tradesQty b := by
  simp [tradesQty]

theorem ordersQty_nil : ordersQty [] = 0 := rfl

theorem ordersQty_cons (o : Order) (os : List Order) :
    ordersQty (o :: os) = o.remainingQty + ordersQty os := by
  simp [ordersQty]

theorem ordersQty_append (a b : List Order) :
    ordersQty (a ++ b) = ordersQty a + ordersQty b := by
  simp [ordersQty]

theorem flattenOrders_cons (l : PriceLevel) (ls : List PriceLevel) :
    flattenOrders (l :: ls) = l.orders ++ flattenOrders ls := rfl

theorem levelsQty_nil : levelsQty [] = 0 := rfl

theorem levelsQty_cons (l : PriceLevel) (ls : List PriceLevel) :
    levelsQty (l :: ls) = ordersQty l.orders + levelsQty ls := by
  simp [levelsQty, flattenOrders_cons, ordersQty_append]

theorem mkTrade_qty (tid2 : Nat) (incoming resting : Order) (fillQty : Int)
    (i : Nat) (ts : Int) : (mkTrade tid2 incoming resting fillQty i ts).qty = fillQty := by
  unfold mkTrade; split <;> rfl

theorem walkLevel_nil (inc : Order) (kept : List Order) (idx : List Nat)
    (tid : Nat) (ts : Int) :
    walkLevel inc kept [] idx tid ts = ⟨[], kept, idx, tid, inc⟩ := rfl

theorem walkLevel_cons_stop (inc resting : Order) (kept rest : List Order)
    (idx : List Nat) (tid : Nat) (ts : Int) (h : ¬ inc.remainingQty > 0) :
    walkLevel inc kept (resting :: rest) idx tid ts =
      ⟨[], kept ++ (resting :: rest), idx, tid, inc⟩ := by
  simp [walkLevel, h]

theorem walkLevel_cons_rm (inc resting : Order) (kept rest : List Order)
    (idx : List Nat) (tid : Nat) (ts : Int) (h : inc.remainingQty > 0)
    (h2 : resting.remainingQty - min64 inc.remainingQty resting.remainingQty ≤ 0) :
    walkLevel inc kept (resting :: rest) idx tid ts =
      (let fillQty := min64 inc.remainingQty resting.remainingQty
       let w := walkLevel { inc with remainingQty := inc.remainingQty - fillQty }
         kept rest (idxDelete idx resting.id) (tid + 1) ts
       ⟨mkTrade (tid + 1) inc resting fillQty kept.length ts :: w.trades,
        w.orders, w.idx, w.tid, w.inc⟩) := by
  simp [walkLevel, h, h2]

theorem walkLevel_cons_keep (inc resting : Order) (kept rest : List Order)
    (idx : List Nat) (tid : Nat) (ts : Int) (h : inc.remainingQty > 0)
    (h2 : ¬ resting.remainingQty - min64 inc.remainingQty resting.remainingQty ≤ 0) :
    walkLevel inc kept (resting :: rest) idx tid ts =
      (let fillQty := min64 inc.remainingQty resting.remainingQty
       let w := walkLevel { inc with remainingQty := inc.remainingQty - fillQty }
         (kept ++ [{ resting with remainingQty := resting.remainingQty - fillQty }])
         rest idx (tid + 1) ts
       ⟨mkTrade (tid + 1) inc resting fillQty kept.length ts :: w.trades,
        w.orders, w.idx, w.tid, w.inc⟩) := by
  simp [walkLevel, h, h2]

/-- Quantity bookkeeping of the level walk: the incoming's remaining
drops by the total traded quantity, and so does the queue's volume. -/
theorem walkLevel_conserve (ts : Int) :
    ∀ (pending kept : List Order) (inc : Order) (idx : List Nat) (tid : Nat),
      (walkLevel inc kept pending idx tid ts).inc.remainingQty
          + tradesQty (walkLevel inc kept pending idx tid ts).trades
        = inc.remainingQty ∧
      ordersQty (walkLevel inc kept pending idx tid ts).orders
          + tradesQty (walkLevel inc kept pending idx tid ts).trades
        = ordersQty kept + ordersQty pending := by
  intro pending
  induction pending with
  | nil =>
    intro kept inc idx tid
    simp [walkLevel_nil, tradesQty_nil, ordersQty_nil]
  | cons resting rest ih =>
    intro kept inc idx tid
    by_cases h : inc.remainingQty > 0
    · by_cases h2 : resting.remainingQty - min64 inc.remainingQty resting.remainingQty ≤ 0
      · rw [walkLevel_cons_rm inc resting kept rest idx tid ts h h2]
        have hfr : min64 inc.remainingQty resting.remainingQty = resting.remainingQty := by
          have := min64_le_right inc.remainingQty resting.remainingQty
          omega
        obtain ⟨ih1, ih2⟩ := ih kept
          { inc with remainingQty := inc.remainingQty - min64 inc.remainingQty resting.remainingQty }
          (idxDelete idx resting.id) (tid + 1)
        simp only [tradesQty_cons, mkTrade_qty] at *
        constructor
        · omega
        · rw [ordersQty_cons]
          omega
      · rw [walkLevel_cons_keep inc resting kept rest idx tid ts h h2]
        obtain ⟨ih1, ih2⟩ := ih
          (kept ++ [{ resting with remainingQty := resting.remainingQty - min64 inc.remainingQty resting.remainingQty }])
          { inc with remainingQty := inc.remainingQty - min64 inc.remainingQty resting.remainingQty }
          idx (tid + 1)
        simp only [tradesQty_cons, mkTrade_qty, ordersQty_append, ordersQty_cons,
          ordersQty_nil] at *
        constructor
        · omega
        · omega
    · rw [walkLevel_cons_stop inc resting kept rest idx tid ts h]
      simp [tradesQty_nil, ordersQty_append, ordersQty_cons]

/-- The incoming order's non-quantity fields survive the walk. -/
theorem walkLevel_inc_static (ts : Int) :
    ∀ (pending kept : List Order) (inc : Order) (idx : List Nat) (tid : Nat),
      (walkLevel inc kept pending idx tid ts).inc =
        { inc with remainingQty := (walkLevel inc kept pending idx tid ts).inc.remainingQty } := by
  intro pending
  induction pending with
  | nil => intro kept inc idx tid; rfl
  | cons resting rest ih =>
    intro kept inc idx tid
    by_cases h : inc.remainingQty > 0
    · by_cases h2 : resting.remainingQty - min64 inc.remainingQty resting.remainingQty ≤ 0
      · rw [walkLevel_cons_rm inc resting kept rest idx tid ts h h2]
        exact ih kept _ _ _
      · rw [walkLevel_cons_keep inc resting kept rest idx tid ts h h2]
        exact ih _ _ _ _
    · rw [walkLevel_cons_stop inc resting kept rest idx tid ts h]

theorem matchLevels_nil (inc : Order) (idx : List Nat) (tid : Nat) (ts : Int) :
    matchLevels inc [] idx tid ts = ⟨[], [], idx, tid, inc⟩ := rfl

theorem matchLevels_stop (inc : Order) (level : PriceLevel) (rest : List PriceLevel)
    (idx : List Nat) (tid : Nat) (ts : Int) (h : ¬ inc.remainingQty > 0) :
    matchLevels inc (level :: rest) idx tid ts = ⟨[], level :: rest, idx, tid, inc⟩ := by
  simp [matchLevels, h]

theorem matchLevels_break (inc : Order) (level : PriceLevel) (rest : List PriceLevel)
    (idx : List Nat) (tid : Nat) (ts : Int) (h : inc.remainingQty > 0)
    (hb : priceBreak inc level.price = true) :
    matchLevels inc (level :: rest) idx tid ts = ⟨[], level :: rest, idx, tid, inc⟩ := by
  simp [matchLevels, h, hb]

theorem matchLevels_cont (inc : Order) (level : PriceLevel) (rest : List PriceLevel)
    (idx : List Nat) (tid : Nat) (ts : Int) (h : inc.remainingQty > 0)
    (hb : priceBreak inc level.price = false)
    (hw : (walkLevel inc [] level.orders idx tid ts).orders = []) :
    matchLevels inc (level :: rest) idx tid ts =
      (let w := walkLevel inc [] level.orders idx tid ts
       let m := matchLevels w.inc rest w.idx w.tid ts
       ⟨w.trades ++ m.trades, m.levels, m.idx, m.tid, m.inc⟩) := by
  simp [matchLevels, h, hb, hw]

theorem matchLevels_keep (inc : Order) (level : PriceLevel) (rest : List PriceLevel)
    (idx : List Nat) (tid : Nat) (ts : Int) (h : inc.remainingQty > 0)
    (hb : priceBreak inc level.price = false) (o : Order) (os : List Order)
    (hw : (walkLevel inc [] level.orders idx tid ts).orders = o :: os) :
    matchLevels inc (level :: rest) idx tid ts =
      (let w := walkLevel inc [] level.orders idx tid ts
       ⟨w.trades, { level with orders := o :: os } :: rest, w.idx, w.tid, w.inc⟩) := by
  simp [matchLevels, h, hb, hw]

/-- Quantity bookkeeping of the traversal: incoming remaining and the
side's total volume both drop by the total traded quantity. -/
theorem matchLevels_conserve (ts : Int) :
    ∀ (levels : List PriceLevel) (inc : Order) (idx : List Nat) (tid : Nat),
      (matchLevels inc levels idx tid ts).inc.remainingQty
          + tradesQty (matchLevels inc levels idx tid ts).trades
        = inc.remainingQty ∧
      levelsQty (matchLevels inc levels idx tid ts).levels
          + tradesQty (matchLevels inc levels idx tid ts).trades
        = levelsQty levels := by
  intro levels
  induction levels with
  | nil => intro inc idx tid; simp [matchLevels_nil, tradesQty_nil, levelsQty_nil]
  | cons level rest ih =>
    intro inc idx tid
    by_cases h : inc.remainingQty > 0
    · cases hb : priceBreak inc level.price with
      | true => rw [matchLevels_break inc level rest idx tid ts h hb]; simp [tradesQty_nil]
      | false =>
        obtain ⟨w1, w2⟩ := walkLevel_conserve ts level.orders [] inc idx tid
        cases hw : (walkLevel inc [] level.orders idx tid ts).orders with
        | nil =>
          rw [matchLevels_cont inc level rest idx tid ts h hb hw]
          obtain ⟨m1, m2⟩ := ih (walkLevel inc [] level.orders idx tid ts).inc
            (walkLevel inc [] level.orders idx tid ts).idx
            (walkLevel inc [] level.orders idx tid ts).tid
          rw [hw] at w2
          simp only [tradesQty_append, levelsQty_cons, ordersQty_nil] at *
          constructor
          · omega
          · omega
        | cons o os =>
          rw [matchLevels_keep inc level rest idx tid ts h hb o os hw]
          rw [hw] at w2
          simp only [levelsQty_cons, ordersQty_nil] at *
          constructor
          · omega
          · omega
    · rw [matchLevels_stop inc level rest idx tid ts h]
      simp [tradesQty_nil]

/-- The incoming order's non-quantity fields survive the traversal. -/
theorem matchLevels_inc_static (ts : Int) :
    ∀ (levels : List PriceLevel) (inc : Order) (idx : List Nat) (tid : Nat),
      (matchLevels inc levels idx tid ts).inc =
        { inc with remainingQty := (matchLevels inc levels idx tid ts).inc.remainingQty } := by
  intro levels
  induction levels with
  | nil => intro inc idx tid; rfl
  | cons level rest ih =>
    intro inc idx tid
    by_cases h : inc.remainingQty > 0
    · cases hb : priceBreak inc level.price with
      | true => rw [matchLevels_break inc level rest idx tid ts h hb]
      | false =>
        cases hw : (walkLevel inc [] level.orders idx tid ts).orders with
        | nil =>
          rw [matchLevels_cont inc level rest idx tid ts h hb hw]
          have hws := walkLevel_inc_static ts level.orders [] inc idx tid
          have hms := ih (walkLevel inc [] level.orders idx tid ts).inc
            (walkLevel inc [] level.orders idx tid ts).idx
            (walkLevel inc [] level.orders idx tid ts).tid
          simp only at *
          rw [hms, hws]
        | cons o os =>
          rw [matchLevels_keep inc level rest idx tid ts h hb o os hw]
          exact walkLevel_inc_static ts level.orders [] inc idx tid
    · rw [matchLevels_stop inc level rest idx tid ts h]

/-- Book.insert touches only the side selected by the order's side
test. -/
theorem insert_asks_of_buy (b : Book) (o : Order) (h : o.side = buySide) :
    (b.insert o).asks = b.asks := by
  simp [Book.insert, h]

theorem insert_bids_of_sell (b : Book) (o : Order) (h : ¬ o.side = buySide) :
    (b.insert o).bids = b.bids := by
  simp [Book.insert, h]

/-- matchIncoming for a buy: matches against the asks. -/
theorem matchIncoming_buy (b : Book) (inc : Order) (ts : Int) (h : inc.side = buySide) :
    b.matchIncoming inc ts =
      ((matchLevels inc b.asks b.orderIndex b.nextTradeID ts).trades,
       { b with asks := (matchLevels inc b.asks b.orderIndex b.nextTradeID ts).levels,
                orderIndex := (matchLevels inc b.asks b.orderIndex b.nextTradeID ts).idx,
                nextTradeID := (matchLevels inc b.asks b.orderIndex b.nextTradeID ts).tid },
       (matchLevels inc b.asks b.orderIndex b.nextTradeID ts).inc) := by
  simp [Book.matchIncoming, h]

/-- matchIncoming for a non-buy: matches against the bids. -/
theorem matchIncoming_sell (b : Book) (inc : Order) (ts : Int) (h : ¬ inc.side = buySide) :
    b.matchIncoming inc ts =
      ((matchLevels inc b.bids b.orderIndex b.nextTradeID ts).trades,
       { b with bids := (matchLevels inc b.bids b.orderIndex b.nextTradeID ts).levels,
                orderIndex := (matchLevels inc b.bids b.orderIndex b.nextTradeID ts).idx,
                nextTradeID := (matchLevels inc b.bids b.orderIndex b.nextTradeID ts).tid },
       (matchLevels inc b.bids b.orderIndex b.nextTradeID ts).inc) := by
  simp [Book.matchIncoming, h]

/-! ### Claim C9: quantity conservation of matching -/

/-- matchedVolume projections. -/
theorem matchedVolume_buy (b : Book) (s : Int) (h : s = buySide) :
    b.matchedVolume s = levelsQty b.asks := by
  simp [Book.matchedVolume, h]

theorem matchedVolume_sell (b : Book) (s : Int) (h : ¬ s = buySide) :
    b.matchedVolume s = levelsQty b.bids := by
  simp [Book.matchedVolume, h]

/-- matchedLevels projections. -/
theorem matchedLevels_buy (b : Book) (s : Int) (h : s = buySide) :
    b.matchedLevels s = b.asks := by
  simp [Book.matchedLevels, h]

theorem matchedLevels_sell (b : Book) (s : Int) (h : ¬ s = buySide) :
    b.matchedLevels s = b.bids := by
  simp [Book.matchedLevels, h]

theorem ordersRemAt_nil (i : Nat) : ordersRemAt [] i = 0 := rfl

theorem ordersRemAt_cons (o : Order) (os : List Order) (i : Nat) :
    ordersRemAt (o :: os) i =
      (if o.id = i then o.remainingQty else 0) + ordersRemAt os i := by
  by_cases h : o.id = i
  · simp [ordersRemAt, List.filter_cons, h, ordersQty_cons]
  · simp [ordersRemAt, List.filter_cons, h]

theorem ordersRemAt_append (a b : List Order) (i : Nat) :
    ordersRemAt (a ++ b) i = ordersRemAt a i + ordersRemAt b i := by
  simp [ordersRemAt, List.filter_append, ordersQty_append]

theorem levelsRemAt_nil (i : Nat) : levelsRemAt [] i = 0 := rfl

theorem levelsRemAt_cons (l : PriceLevel) (ls : List PriceLevel) (i : Nat) :
    levelsRemAt (l :: ls) i = ordersRemAt l.orders i + levelsRemAt ls i := by
  simp [levelsRemAt, flattenOrders_cons, ordersRemAt_append]

theorem passiveQtyAt_nil (i : Nat) : passiveQtyAt [] i = 0 := rfl

theorem passiveQtyAt_cons (t : Trade) (trs : List Trade) (i : Nat) :
    passiveQtyAt (t :: trs) i =
      (if t.passiveOrderId = i then t.qty else 0) + passiveQtyAt trs i := by
  by_cases h : t.passiveOrderId = i
  · simp [passiveQtyAt, List.filter_cons, h, tradesQty_cons]
  · simp [passiveQtyAt, List.filter_cons, h]

theorem passiveQtyAt_append (a b : List Trade) (i : Nat) :
    passiveQtyAt (a ++ b) i = passiveQtyAt a i + passiveQtyAt b i := by
  simp [passiveQtyAt, List.filter_append, tradesQty_append]

/-- The trade built in the match loop names the resting order as its
passive order. -/
theorem mkTrade_passive (tid2 : Nat) (incoming resting : Order) (fillQty : Int)
    (i : Nat) (ts : Int) :
    (mkTrade tid2 incoming resting fillQty i ts).passiveOrderId = resting.id := by
  unfold mkTrade; split <;> rfl

/-- Per-id bookkeeping of the level walk: for every order id, the
remaining quantity resting under that id plus the quantity traded
against it as passive is preserved. -/
theorem walkLevel_remAt (ts : Int) (i : Nat) :
    ∀ (pending kept : List Order) (inc : Order) (idx : List Nat) (tid : Nat),
      ordersRemAt (walkLevel inc kept pending idx tid ts).orders i
          + passiveQtyAt (walkLevel inc kept pending idx tid ts).trades i
        = ordersRemAt kept i + ordersRemAt pending i := by
  intro pending
  induction pending with
  | nil =>
    intro kept inc idx tid
    simp [walkLevel_nil, passiveQtyAt_nil, ordersRemAt_nil]
  | cons resting rest ih =>
    intro kept inc idx tid
    by_cases h : inc.remainingQty > 0
    · by_cases h2 : resting.remainingQty - min64 inc.remainingQty resting.remainingQty ≤ 0
      · rw [walkLevel_cons_rm inc resting kept rest idx tid ts h h2]
        have hfr : min64 inc.remainingQty resting.remainingQty = resting.remainingQty := by
          have := min64_le_right inc.remainingQty resting.remainingQty
          omega
        have ihx := ih kept
          { inc with remainingQty := inc.remainingQty - min64 inc.remainingQty resting.remainingQty }
          (idxDelete idx resting.id) (tid + 1)
        simp only [passiveQtyAt_cons, mkTrade_passive, mkTrade_qty, ordersRemAt_cons] at *
        by_cases hid : resting.id = i
        · simp only [if_pos hid] at *
          omega
        · simp only [if_neg hid] at *
          omega
      · rw [walkLevel_cons_keep inc resting kept rest idx tid ts h h2]
        have ihx := ih
          (kept ++ [{ resting with remainingQty := resting.remainingQty - min64 inc.remainingQty resting.remainingQty }])
          { inc with remainingQty := inc.remainingQty - min64 inc.remainingQty resting.remainingQty }
          idx (tid + 1)
        simp only [passiveQtyAt_cons, mkTrade_passive, mkTrade_qty, ordersRemAt_cons,
          ordersRemAt_append, ordersRemAt_nil] at *
        by_cases hid : resting.id = i
        · simp only [if_pos hid] at *
          omega
        · simp only [if_neg hid] at *
          omega
    · rw [walkLevel_cons_stop inc resting kept rest idx tid ts h]
      simp [passiveQtyAt_nil, ordersRemAt_append, ordersRemAt_cons]

/-- Per-id bookkeeping of the traversal over levels. -/
theorem matchLevels_remAt (ts : Int) (i : Nat) :
    ∀ (levels : List PriceLevel) (inc : Order) (idx : List Nat) (tid : Nat),
      levelsRemAt (matchLevels inc levels idx tid ts).levels i
          + passiveQtyAt (matchLevels inc levels idx tid ts).trades i
        = levelsRemAt levels i := by
  intro levels
  induction levels with
  | nil => intro inc idx tid; simp [matchLevels_nil, passiveQtyAt_nil, levelsRemAt_nil]
  | cons level rest ih =>
    intro inc idx tid
    by_cases h : inc.remainingQty > 0
    · cases hb : priceBreak inc level.price with
      | true =>
        rw [matchLevels_break inc level rest idx tid ts h hb]
        simp [passiveQtyAt_nil]
      | false =>
        have w2 := walkLevel_remAt ts i level.orders [] inc idx tid
        cases hw : (walkLevel inc [] level.orders idx tid ts).orders with
        | nil =>
          rw [matchLevels_cont inc level rest idx tid ts h hb hw]
          have m2 := ih (walkLevel inc [] level.orders idx tid ts).inc
            (walkLevel inc [] level.orders idx tid ts).idx
            (walkLevel inc [] level.orders idx tid ts).tid
          rw [hw] at w2
          simp only [passiveQtyAt_append, levelsRemAt_cons, ordersRemAt_nil] at *
          omega
        | cons o os =>
          rw [matchLevels_keep inc level rest idx tid ts h hb o os hw]
          rw [hw] at w2
          simp only [levelsRemAt_cons, ordersRemAt_nil] at *
          omega
    · rw [matchLevels_stop inc level rest idx tid ts h]
      simp [passiveQtyAt_nil]

/-- Per-id conservation for processLimit: on the matched side, the
remaining under any id drops by exactly the quantity traded against
that id as passive. -/
theorem processLimit_remAt (b : Book) (o : Order) (ts : Int) (i : Nat) :
    levelsRemAt ((b.processLimit o ts).2.2.1.matchedLevels o.side) i
        + passiveQtyAt (b.processLimit o ts).1 i
      = levelsRemAt (b.matchedLevels o.side) i := by
  by_cases hs : o.side = buySide
  · simp only [Book.processLimit, matchIncoming_buy b { o with remainingQty := o.qty } ts hs]
    have c2 := matchLevels_remAt ts i b.asks { o with remainingQty := o.qty }
      b.orderIndex b.nextTradeID
    have hstat := matchLevels_inc_static ts b.asks { o with remainingQty := o.qty }
      b.orderIndex b.nextTradeID
    have hside : (matchLevels { o with remainingQty := o.qty } b.asks b.orderIndex
        b.nextTradeID ts).inc.side = buySide := by rw [hstat]; exact hs
    simp only [matchedLevels_buy _ _ hs]
    split
    · rw [insert_asks_of_buy _ _ hside]
      simpa using c2
    · simpa using c2
  · simp only [Book.processLimit, matchIncoming_sell b { o with remainingQty := o.qty } ts hs]
    have c2 := matchLevels_remAt ts i b.bids { o with remainingQty := o.qty }
      b.orderIndex b.nextTradeID
    have hstat := matchLevels_inc_static ts b.bids { o with remainingQty := o.qty }
      b.orderIndex b.nextTradeID
    have hside : ¬ (matchLevels { o with remainingQty := o.qty } b.bids b.orderIndex
        b.nextTradeID ts).inc.side = buySide := by rw [hstat]; exact hs
    simp only [matchedLevels_sell _ _ hs]
    split
    · rw [insert_bids_of_sell _ _ hside]
      simpa using c2
    · simpa using c2

/-- Per-id conservation for processMarket. -/
theorem processMarket_remAt (b : Book) (o : Order) (ts : Int) (i : Nat) :
    levelsRemAt ((b.processMarket o ts).2.2.1.matchedLevels o.side) i
        + passiveQtyAt (b.processMarket o ts).1 i
      = levelsRemAt (b.matchedLevels o.side) i := by
  by_cases hs : o.side = buySide
  · simp only [Book.processMarket, matchIncoming_buy b { o with remainingQty := o.qty } ts hs]
    have c2 := matchLevels_remAt ts i b.asks { o with remainingQty := o.qty }
      b.orderIndex b.nextTradeID
    simp only [matchedLevels_buy _ _ hs]
    simpa using c2
  · simp only [Book.processMarket, matchIncoming_sell b { o with remainingQty := o.qty } ts hs]
    have c2 := matchLevels_remAt ts i b.bids { o with remainingQty := o.qty }
      b.orderIndex b.nextTradeID
    simp only [matchedLevels_sell _ _ hs]
    simpa using c2

/-- Per-id conservation through the ProcessOrder dispatch. -/
theorem processOrder_remAt (b : Book) (o : Order) (ts : Int) (i : Nat)
    (h : o.otype = OrderType.limit ∨ o.otype = OrderType.market) :
    levelsRemAt ((b.processOrder o ts).2.2.1.matchedLevels o.side) i
        + passiveQtyAt (b.processOrder o ts).1 i
      = levelsRemAt (b.matchedLevels o.side) i := by
  rcases h with h | h
  · have he : b.processOrder o ts = b.processLimit o ts := by
      unfold Book.processOrder; rw [h]
    rw [he]; exact processLimit_remAt b o ts i
  · have he : b.processOrder o ts = b.processMarket o ts := by
      unfold Book.processOrder; rw [h]
    rw [he]; exact processMarket_remAt b o ts i

/-- Conservation for processLimit. -/
theorem processLimit_conserve (b : Book) (o : Order) (ts : Int) :
    o.qty = (b.processLimit o ts).2.2.2.remainingQty + tradesQty (b.processLimit o ts).1 ∧
    (b.processLimit o ts).2.2.1.matchedVolume o.side + tradesQty (b.processLimit o ts).1
      = b.matchedVolume o.side := by
  by_cases hs : o.side = buySide
  · simp only [Book.processLimit, matchIncoming_buy b { o with remainingQty := o.qty } ts hs]
    obtain ⟨c1, c2⟩ := matchLevels_conserve ts b.asks { o with remainingQty := o.qty }
      b.orderIndex b.nextTradeID
    have hstat := matchLevels_inc_static ts b.asks { o with remainingQty := o.qty }
      b.orderIndex b.nextTradeID
    have hside : (matchLevels { o with remainingQty := o.qty } b.asks b.orderIndex
        b.nextTradeID ts).inc.side = buySide := by rw [hstat]; exact hs
    constructor
    · simpa using c1.symm
    · simp only [matchedVolume_buy _ _ hs]
      split
      · rw [insert_asks_of_buy _ _ hside]
        simpa using c2
      · simpa using c2
  · simp only [Book.processLimit, matchIncoming_sell b { o with remainingQty := o.qty } ts hs]
    obtain ⟨c1, c2⟩ := matchLevels_conserve ts b.bids { o with remainingQty := o.qty }
      b.orderIndex b.nextTradeID
    have hstat := matchLevels_inc_static ts b.bids { o with remainingQty := o.qty }
      b.orderIndex b.nextTradeID
    have hside : ¬ (matchLevels { o with remainingQty := o.qty } b.bids b.orderIndex
        b.nextTradeID ts).inc.side = buySide := by rw [hstat]; exact hs
    constructor
    · simpa using c1.symm
    · simp only [matchedVolume_sell _ _ hs]
      split
      · rw [insert_bids_of_sell _ _ hside]
        simpa using c2
      · simpa using c2

/-- Conservation for processMarket. -/
theorem processMarket_conserve (b : Book) (o : Order) (ts : Int) :
    o.qty = (b.processMarket o ts).2.2.2.remainingQty + tradesQty (b.processMarket o ts).1 ∧
    (b.processMarket o ts).2.2.1.matchedVolume o.side + tradesQty (b.processMarket o ts).1
      = b.matchedVolume o.side := by
  by_cases hs : o.side = buySide
  · simp only [Book.processMarket, matchIncoming_buy b { o with remainingQty := o.qty } ts hs]
    obtain ⟨c1, c2⟩ := matchLevels_conserve ts b.asks { o with remainingQty := o.qty }
      b.orderIndex b.nextTradeID
    constructor
    · simpa using c1.symm
    · simp only [matchedVolume_buy _ _ hs]
      simpa using c2
  · simp only [Book.processMarket, matchIncoming_sell b { o with remainingQty := o.qty } ts hs]
    obtain ⟨c1, c2⟩ := matchLevels_conserve ts b.bids { o with remainingQty := o.qty }
      b.orderIndex b.nextTradeID
    constructor
    · simpa using c1.symm
    · simp only [matchedVolume_sell _ _ hs]
      simpa using c2

/-- C9: for a Limit or Market order, (1) the original quantity equals
the post-processing remaining plus the total quantity of the returned
trades; (2) for every order id, the remaining quantity resting under
that id on the matched (opposite) side drops by exactly the total
quantity of the returned trades that name it as their passive order;
(3) in particular, for each returned trade, the remaining of its own
passive order's id drops by exactly the trade quantities attributed to
that passive — each trade's quantity was subtracted from its passive
order's remaining (a fully filled passive leaves the book having
contributed its entire remaining, a partial fill stays with the
difference); and (4) the matched side's total volume drops by the
total traded quantity. -/
theorem claim_C9 (b : Book) (o : Order) (ts : Int) (i : Nat)
    (h : o.otype = OrderType.limit ∨ o.otype = OrderType.market) :
    o.qty = (b.processOrder o ts).2.2.2.remainingQty + tradesQty (b.processOrder o ts).1 ∧
    levelsRemAt ((b.processOrder o ts).2.2.1.matchedLevels o.side) i
        + passiveQtyAt (b.processOrder o ts).1 i
      = levelsRemAt (b.matchedLevels o.side) i ∧
    (∀ tr ∈ (b.processOrder o ts).1,
      levelsRemAt ((b.processOrder o ts).2.2.1.matchedLevels o.side) tr.passiveOrderId
          + passiveQtyAt (b.processOrder o ts).1 tr.passiveOrderId
        = levelsRemAt (b.matchedLevels o.side) tr.passiveOrderId) ∧
    (b.processOrder o ts).2.2.1.matchedVolume o.side + tradesQty (b.processOrder o ts).1
      = b.matchedVolume o.side := by
  refine ⟨?_, processOrder_remAt b o ts i h,
    fun tr _ => processOrder_remAt b o ts tr.passiveOrderId h, ?_⟩
  · rcases h with h | h
    · have he : b.processOrder o ts = b.processLimit o ts := by
        unfold Book.processOrder; rw [h]
      rw [he]
      exact (processLimit_conserve b o ts).1
    · have he : b.processOrder o ts = b.processMarket o ts := by
        unfold Book.processOrder; rw [h]
      rw [he]
      exact (processMarket_conserve b o ts).1
  · rcases h with h | h
    · have he : b.processOrder o ts = b.processLimit o ts := by
        unfold Book.processOrder; rw [h]
      rw [he]
      exact (processLimit_conserve b o ts).2
    · have he : b.processOrder o ts = b.processMarket o ts := by
        unfold Book.processOrder; rw [h]
      rw [he]
      exact (processMarket_conserve b o ts).2

/-- C9 witness: a market buy of 15 against the concrete book (trades
10 and 5): the ask side loses 15, and the fully filled passive id 1
loses its entire resting 10 to the trade naming it. -/
theorem claim_C9_witness :
    (OrderType.market = OrderType.limit ∨ OrderType.market = OrderType.market) ∧
      ((wBuyMkt 9 15).qty =
          (witBook.processOrder (wBuyMkt 9 15) 5).2.2.2.remainingQty +
            tradesQty (witBook.processOrder (wBuyMkt 9 15) 5).1 ∧
        levelsRemAt ((witBook.processOrder (wBuyMkt 9 15) 5).2.2.1.matchedLevels
              (wBuyMkt 9 15).side) 1
            + passiveQtyAt (witBook.processOrder (wBuyMkt 9 15) 5).1 1
          = levelsRemAt (witBook.matchedLevels (wBuyMkt 9 15).side) 1 ∧
        (∀ tr ∈ (witBook.processOrder (wBuyMkt 9 15) 5).1,
          levelsRemAt ((witBook.processOrder (wBuyMkt 9 15) 5).2.2.1.matchedLevels
                (wBuyMkt 9 15).side) tr.passiveOrderId
              + passiveQtyAt (witBook.processOrder (wBuyMkt 9 15) 5).1 tr.passiveOrderId
            = levelsRemAt (witBook.matchedLevels (wBuyMkt 9 15).side) tr.passiveOrderId) ∧
        (witBook.processOrder (wBuyMkt 9 15) 5).2.2.1.matchedVolume (wBuyMkt 9 15).side +
            tradesQty (witBook.processOrder (wBuyMkt 9 15) 5).1
          = witBook.matchedVolume (wBuyMkt 9 15).side) :=
  ⟨Or.inr rfl, claim_C9 witBook (wBuyMkt 9 15) 5 1 (Or.inr rfl)⟩

/-! ### Claim C7: latency model -/

/-- Int63 draws are non-negative. -/
theorem int63_nonneg (r : RandSrc) : 0 ≤ r.int63.1 := by
  show (0 : Int) ≤ ((r.bits r.pos % 2 ^ 63 : Nat) : Int)
  exact Int.natCast_nonneg _

/-- The bounded rejection loop draws non-negative values. -/
theorem int63nLoop_nonneg (maxv : Int) :
    ∀ (fuel : Nat) (r : RandSrc), 0 ≤ (int63nLoop r maxv fuel).1 := by
  intro fuel
  induction fuel with
  | zero => intro r; exact int63_nonneg r
  | succ n ih =>
    intro r
    simp only [int63nLoop]
    split
    · exact ih _
    · exact int63_nonneg r

/-- rand.Int63n lands in [0, n) for positive n. -/
theorem int63n_range (r : RandSrc) (n : Int) (h : 0 < n) :
    0 ≤ (r.int63n n).1 ∧ (r.int63n n).1 < n := by
  unfold RandSrc.int63n
  have hn : ¬ n ≤ 0 := by omega
  simp only [hn, if_false]
  split
  · constructor
    · positivity
    · have hland : (r.int63.1.toNat &&& (n.toNat - 1)) ≤ n.toNat - 1 := Nat.and_le_right
      have hpos : 1 ≤ n.toNat := by omega
      have : ((r.int63.1.toNat &&& (n.toNat - 1) : Nat) : Int) ≤ ((n.toNat - 1 : Nat) : Int) := by
        exact_mod_cast hland
      omega
  · constructor
    · exact Int.emod_nonneg _ (by omega)
    · exact Int.emod_lt_of_pos _ h

/-- C7: Apply returns decision + base + jitter with 0 ≤ jitter <
jitter_ns when jitter_ns > 0; with jitter_ns = 0 it is exactly
decision + base and the model state (hence the PRNG) is untouched; and
the model is a pure function of (base, jitter, seed), so two models
built from equal parameters agree on every call sequence. -/
theorem claim_C7 (m : Model) (t : Int) :
    (m.jitterNs = 0 → m.apply t = (t + m.baseNs, m)) ∧
    (0 < m.jitterNs →
      ∃ j, 0 ≤ j ∧ j < m.jitterNs ∧ (m.apply t).1 = t + m.baseNs + j) ∧
    (∀ (base jit seed : Int) (ts : List Int) (m1 m2 : Model),
      m1 = NewModel base jit seed → m2 = NewModel base jit seed →
      m1.applySeq ts = m2.applySeq ts) := by
  refine ⟨?_, ?_, ?_⟩
  · intro h
    unfold Model.apply
    rw [h]
    simp
  · intro h
    unfold Model.apply
    simp only [h, if_pos]
    obtain ⟨h1, h2⟩ := int63n_range m.rng m.jitterNs h
    exact ⟨(m.rng.int63n m.jitterNs).1, h1, h2, rfl⟩
  · intro base jit seed ts m1 m2 h1 h2
    rw [h1, h2]

/-- C7 witness: base 7, jitter 4, seed 1 at decision time 10, plus the
zero-jitter affine case at base 5. -/
theorem claim_C7_witness :
    ((NewModel 5 0 42).apply 100 = (105, NewModel 5 0 42)) ∧
      (∃ j, 0 ≤ j ∧ j < (NewModel 7 4 1).jitterNs ∧
        ((NewModel 7 4 1).apply 10).1 = 10 + 7 + j) := by
  constructor
  · exact (claim_C7 (NewModel 5 0 42) 100).1 rfl
  · exact (claim_C7 (NewModel 7 4 1) 10).2.1 (by decide)

/-! ### sort.Search characterization (shared by C8 and the insert
refinement) -/

/-- The binary-search loop on a monotone predicate finds the boundary:
everything below the result is false, everything from the result to n
is true. -/
theorem searchGo_mono_spec (f : Nat → Bool) (n : Nat)
    (mono : ∀ k l, k ≤ l → l < n → f k = true → f l = true) :
    ∀ (fuel i j : Nat), j - i ≤ fuel → i ≤ j → j ≤ n →
      (∀ k, k < i → f k = false) → (∀ k, j ≤ k → k < n → f k = true) →
      i ≤ searchGo f fuel i j ∧ searchGo f fuel i j ≤ j ∧
        (∀ k, k < searchGo f fuel i j → f k = false) ∧
        (∀ k, searchGo f fuel i j ≤ k → k < n → f k = true) := by
  intro fuel
  induction fuel with
  | zero =>
    intro i j hfuel hij hjn hlow hhigh
    have : i = j := by omega
    subst this
    exact ⟨Nat.le_refl _, Nat.le_refl _, hlow, fun k hk hkn => hhigh k hk hkn⟩
  | succ fuel ih =>
    intro i j hfuel hij hjn hlow hhigh
    by_cases hlt : i < j
    · have hm1 : i ≤ (i + j) / 2 := by omega
      have hm2 : (i + j) / 2 < j := by omega
      simp only [searchGo, hlt, if_pos]
      cases hfm : f ((i + j) / 2) with
      | true =>
        simp only [hfm, if_pos]
        have := ih i ((i + j) / 2) (by omega) hm1 (by omega) hlow
          (fun k hk hkn => mono ((i + j) / 2) k hk hkn hfm)
        exact ⟨this.1, by omega, this.2.2.1, this.2.2.2⟩
      | false =>
        simp only [hfm, if_neg, Bool.false_eq_true, not_false_iff, if_false]
        have hlow2 : ∀ k, k < (i + j) / 2 + 1 → f k = false := by
          intro k hk
          by_cases hki : k < i
          · exact hlow k hki
          · cases hfk : f k with
            | false => rfl
            | true =>
              have : f ((i + j) / 2) = true :=
                mono k ((i + j) / 2) (by omega) (by omega) hfk
              rw [this] at hfm
              exact absurd hfm (by simp)
        have := ih ((i + j) / 2 + 1) j (by omega) (by omega) hjn hlow2 hhigh
        exact ⟨by omega, this.2.1, this.2.2.1, this.2.2.2⟩
    · simp only [searchGo, hlt, if_neg, not_false_iff, if_false]
      have : i = j := by omega
      subst this
      exact ⟨Nat.le_refl _, Nat.le_refl _, hlow, fun k hk hkn => hhigh k hk hkn⟩

/-- sort.Search on a monotone predicate returns the least true index
(or n when none). -/
theorem sortSearch_mono_spec (f : Nat → Bool) (n : Nat)
    (mono : ∀ k l, k ≤ l → l < n → f k = true → f l = true) :
    sortSearch n f ≤ n ∧ (∀ k, k < sortSearch n f → f k = false) ∧
      (∀ k, sortSearch n f ≤ k → k < n → f k = true) := by
  have := searchGo_mono_spec f n mono n 0 n (by omega) (by omega) (by omega)
    (fun k hk => absurd hk (Nat.not_lt_zero k)) (fun k hk hkn => by omega)
  exact ⟨this.2.1, this.2.2.1, this.2.2.2⟩

/-! ### Claim C8: mid-price lookup -/

/-- C8: on an empty history the lookup yields 0; on a time-ordered
history containing at least one snapshot at or before t, it yields the
mid of the latest such snapshot. -/
theorem claim_C8 (hist : List BboSnap) (t : Int) :
    (hist = [] → midAtTime hist t = 0) ∧
    (List.Pairwise (fun a b => a.timestamp ≤ b.timestamp) hist →
      ∀ i, i < hist.length → (snapAt hist i).timestamp ≤ t →
      ∃ j, j < hist.length ∧ latestAtOrBefore hist t j ∧
        midAtTime hist t = (snapAt hist j).bbo.midPrice) := by
  constructor
  · intro h
    subst h
    rfl
  · intro hsort i hi hts
    have hmono : ∀ k l, k ≤ l → l < hist.length →
        (decide ((snapAt hist k).timestamp > t)) = true →
        (decide ((snapAt hist l).timestamp > t)) = true := by
      intro k l hkl hln hk
      have hts2 : (snapAt hist k).timestamp ≤ (snapAt hist l).timestamp := by
        rcases Nat.eq_or_lt_of_le hkl with he | hlt
        · subst he; exact le_refl _
        · have hkn : k < hist.length := lt_trans hlt hln
          have := List.pairwise_iff_get.mp hsort ⟨k, hkn⟩ ⟨l, hln⟩ hlt
          simpa [snapAt, List.getD_eq_get, hkn, hln] using this
      simp only [decide_eq_true_eq] at *
      omega
    obtain ⟨hle, hlow, hhigh⟩ := sortSearch_mono_spec
      (fun k => decide ((snapAt hist k).timestamp > t)) hist.length hmono
    set idx := sortSearch hist.length (fun k => decide ((snapAt hist k).timestamp > t))
      with hidx
    have hi_lt : i < idx := by
      by_contra hcon
      have := hhigh i (by omega) hi
      simp only [decide_eq_true_eq] at this
      omega
    have hidx_pos : idx ≠ 0 := by omega
    have hne : hist ≠ [] := by
      intro h
      rw [h] at hi
      exact absurd hi (by simp)
    refine ⟨idx - 1, by omega, ⟨?_, ?_⟩, ?_⟩
    · have := hlow (idx - 1) (by omega)
      simp only [decide_eq_false_iff_not] at this
      omega
    · intro k hk hkts
      by_contra hcon
      have := hhigh k (by omega) hk
      simp only [decide_eq_true_eq] at this
      omega
    · unfold midAtTime
      have hemp : hist.isEmpty = false := by
        cases hist with
        | nil => exact absurd rfl hne
        | cons a l => rfl
      rw [hemp]
      simp only [Bool.false_eq_true, if_false, ← hidx, hidx_pos, if_neg]

/-- C8 witness: history [(5, mid 7), (9, mid 8)] at t = 6 yields 7 (and
the empty history yields 0). -/
theorem claim_C8_witness :
    (([] : List BboSnap) = [] → midAtTime [] 6 = 0) ∧
      (List.Pairwise (fun a b => a.timestamp ≤ b.timestamp) witHist ∧
        (0 : Nat) < witHist.length ∧
        (snapAt witHist 0).timestamp ≤ 6 ∧
        ∃ j, j < witHist.length ∧ latestAtOrBefore witHist 6 j ∧
          midAtTime witHist 6 = (snapAt witHist j).bbo.midPrice) := by
  refine ⟨(claim_C8 [] 6).1, by decide, by decide, by decide, ?_⟩
  exact (claim_C8 witHist 6).2 (by decide) 0 (by decide) (by decide)

/-! ### Event loop lemmas (claim C5) -/

theorem schedule_queue (el : EventLoop) (e : Event) :
    (el.schedule e).queue = el.queue ++ [{ e with seqNo := el.seqNo + 1 }] ∧
      (el.schedule e).seqNo = el.seqNo + 1 := ⟨rfl, rfl⟩

/-- Scheduling a batch appends it with consecutive sequence numbers. -/
theorem scheduleAll_spec :
    ∀ (evts : List Event) (el : EventLoop),
      (el.scheduleAll evts).queue = el.queue ++ assignSeqs el.seqNo evts ∧
      (el.scheduleAll evts).seqNo = el.seqNo + evts.length := by
  intro evts
  induction evts with
  | nil => intro el; simp [EventLoop.scheduleAll, assignSeqs]
  | cons e rest ih =>
    intro el
    have h1 : el.scheduleAll (e :: rest) = (el.schedule e).scheduleAll rest := rfl
    obtain ⟨q, s⟩ := ih (el.schedule e)
    rw [h1, q, s]
    constructor
    · show el.queue ++ [{ e with seqNo := el.seqNo + 1 }] ++ assignSeqs (el.seqNo + 1) rest
        = el.queue ++ assignSeqs el.seqNo (e :: rest)
      rw [List.append_assoc]
      rfl
    · show el.seqNo + 1 + rest.length = el.seqNo + (e :: rest).length
      simp [List.length_cons]
      omega

/-- Sequence numbers assigned to a batch are strictly increasing. -/
theorem assignSeqs_pairwise :
    ∀ (l : List Event) (s : Nat),
      List.Pairwise (fun a b => a.seqNo < b.seqNo) (assignSeqs s l) ∧
      ∀ e ∈ assignSeqs s l, s < e.seqNo := by
  intro l
  induction l with
  | nil => intro s; exact ⟨List.Pairwise.nil, by simp [assignSeqs]⟩
  | cons x rest ih =>
    intro s
    obtain ⟨hp, hb⟩ := ih (s + 1)
    constructor
    · refine List.Pairwise.cons ?_ hp
      intro b hbmem
      have := hb b hbmem
      have hx : ({ x with seqNo := s + 1 } : Event).seqNo = s + 1 := rfl
      omega
    · intro e he
      simp only [assignSeqs, List.mem_cons] at he
      rcases he with he | he
      · subst he
        have hx : ({ x with seqNo := s + 1 } : Event).seqNo = s + 1 := rfl
        omega
      · have := hb e he; omega

theorem popMin_none_iff (q : List Event) : popMin q = none ↔ q = [] := by
  cases q with
  | nil => simp [popMin]
  | cons a rest => simp [popMin]

/-- eventLess is asymmetric. -/
theorem eventLess_asymm (a b : Event) (h : eventLess a b = true) :
    eventLess b a = false := by
  simp only [eventLess, decide_eq_true_eq, decide_eq_false_iff_not] at *
  omega

/-- Failing eventLess is transitive (total preorder). -/
theorem eventLess_false_trans (a b c : Event) (h1 : eventLess a b = false)
    (h2 : eventLess b c = false) : eventLess a c = false := by
  simp only [eventLess, decide_eq_false_iff_not] at *
  omega

/-- The candidate sweep returns a permutation of its input. -/
theorem popMinGo_perm :
    ∀ (q : List Event) (e : Event),
      (e :: q).Perm ((popMinGo e q).1 :: (popMinGo e q).2) := by
  intro q
  induction q with
  | nil => intro e; exact List.Perm.refl _
  | cons x rest ih =>
    intro e
    by_cases hless : eventLess (popMinGo x rest).1 e = true
    · simp only [popMinGo, hless, if_pos]
      exact (List.Perm.cons e (ih x)).trans (List.Perm.swap _ e _)
    · have hf : eventLess (popMinGo x rest).1 e = false := by
        cases hc : eventLess (popMinGo x rest).1 e with
        | false => rfl
        | true => exact absurd hc hless
      simp [popMinGo, hf]

/-- Nothing left behind by the sweep is strictly before the minimum. -/
theorem popMinGo_min :
    ∀ (q : List Event) (e : Event),
      ∀ x ∈ (popMinGo e q).2, eventLess x (popMinGo e q).1 = false := by
  intro q
  induction q with
  | nil => intro e x hx; exact absurd hx (by simp [popMinGo])
  | cons y rest ih =>
    intro e x hx
    by_cases hless : eventLess (popMinGo y rest).1 e = true
    · simp only [popMinGo, hless, if_pos] at hx ⊢
      rcases List.mem_cons.mp hx with hxe | hx2
      · subst hxe; exact eventLess_asymm _ _ hless
      · exact ih y x hx2
    · have hme : eventLess (popMinGo y rest).1 e = false := by
        cases hc : eventLess (popMinGo y rest).1 e with
        | false => rfl
        | true => exact absurd hc hless
      simp only [popMinGo, hme, Bool.false_eq_true, if_false] at hx ⊢
      have hmem : x = (popMinGo y rest).1 ∨ x ∈ (popMinGo y rest).2 := by
        have := (popMinGo_perm rest y).mem_iff.mp hx
        simpa using this
      rcases hmem with hxm | hx2
      · rw [hxm]; exact hme
      · exact eventLess_false_trans x _ e (ih y x hx2) hme

theorem popMin_perm (q : List Event) (e : Event) (rest : List Event)
    (h : popMin q = some (e, rest)) : q.Perm (e :: rest) := by
  cases q with
  | nil => exact absurd h (by simp [popMin])
  | cons a q2 =>
    simp only [popMin, Option.some.injEq] at h
    have h1 : (popMinGo a q2).1 = e := by rw [h]
    have h2 : (popMinGo a q2).2 = rest := by rw [h]
    have := popMinGo_perm q2 a
    rw [h1, h2] at this
    exact this

theorem popMin_min (q : List Event) (e : Event) (rest : List Event)
    (h : popMin q = some (e, rest)) : ∀ x ∈ rest, eventLess x e = false := by
  cases q with
  | nil => exact absurd h (by simp [popMin])
  | cons a q2 =>
    simp only [popMin, Option.some.injEq] at h
    have h1 : (popMinGo a q2).1 = e := by rw [h]
    have h2 : (popMinGo a q2).2 = rest := by rw [h]
    intro x hx
    rw [← h1]
    exact popMinGo_min q2 a x (by rw [h2]; exact hx)

theorem popMin_length (q : List Event) (e : Event) (rest : List Event)
    (h : popMin q = some (e, rest)) : rest.length + 1 = q.length := by
  have := (popMin_perm q e rest h).length_eq
  simpa using this.symm

/-- Draining with enough fuel returns a permutation of the queue. -/
theorem drainGo_perm :
    ∀ (fuel : Nat) (q : List Event), q.length ≤ fuel → (drainGo fuel q).Perm q := by
  intro fuel
  induction fuel with
  | zero =>
    intro q h
    have : q = [] := List.length_eq_zero.mp (by omega)
    subst this
    exact List.Perm.refl _
  | succ fuel ih =>
    intro q h
    cases hp : popMin q with
    | none =>
      have : q = [] := (popMin_none_iff q).mp hp
      subst this
      simp [drainGo, popMin]
    | some p =>
      obtain ⟨e, rest⟩ := p
      have hlen := popMin_length q e rest hp
      simp only [drainGo, hp]
      have := ih rest (by omega)
      exact ((this.cons e).trans (popMin_perm q e rest hp).symm)

theorem drainQueue_perm (q : List Event) : (drainQueue q).Perm q :=
  drainGo_perm q.length q (Nat.le_refl _)

/-- The drain output is ordered: no later dispatch is strictly before
an earlier one. -/
theorem drainGo_sorted :
    ∀ (fuel : Nat) (q : List Event), q.length ≤ fuel →
      List.Pairwise (fun a b => eventLess b a = false) (drainGo fuel q) := by
  intro fuel
  induction fuel with
  | zero => intro q h; simp [drainGo]
  | succ fuel ih =>
    intro q h
    cases hp : popMin q with
    | none => simp [drainGo, hp]
    | some p =>
      obtain ⟨e, rest⟩ := p
      have hlen := popMin_length q e rest hp
      simp only [drainGo, hp]
      refine List.Pairwise.cons ?_ (ih rest (by omega))
      intro b hb
      have hbr : b ∈ rest := ((drainGo_perm fuel rest (by omega)).mem_iff).mp hb
      exact popMin_min q e rest hp b hbr

/-! ### Claim C5 main statement -/

/-- C5: scheduling a batch on a fresh loop assigns the sequence
numbers 1, 2, … in schedule order, and the loop dispatches in strict
(timestamp, sequence-number) lexicographic order — in particular two
events with equal timestamps are dispatched in the order they were
scheduled, their assigned sequence numbers being strictly
increasing. -/
theorem claim_C5 (evts : List Event) :
    (EventLoop.scheduleAll {} evts).queue = assignSeqs 0 evts ∧
    (EventLoop.scheduleAll {} evts).seqNo = evts.length ∧
    (drainQueue (EventLoop.scheduleAll {} evts).queue).Perm
      (EventLoop.scheduleAll {} evts).queue ∧
    List.Pairwise dispatchBefore (drainQueue (EventLoop.scheduleAll {} evts).queue) := by
  obtain ⟨hq, hs⟩ := scheduleAll_spec evts {}
  have hq0 : (EventLoop.scheduleAll {} evts).queue = assignSeqs 0 evts := by
    rw [hq]; rfl
  have hs0 : (EventLoop.scheduleAll {} evts).seqNo = evts.length := by
    rw [hs]
    show 0 + evts.length = evts.length
    omega
  refine ⟨hq0, hs0, drainQueue_perm _, ?_⟩
  have hsorted := drainGo_sorted (EventLoop.scheduleAll {} evts).queue.length
    (EventLoop.scheduleAll {} evts).queue (Nat.le_refl _)
  have hseq : List.Pairwise (fun a b : Event => a.seqNo ≠ b.seqNo)
      (drainQueue (EventLoop.scheduleAll {} evts).queue) := by
    have hpq : List.Pairwise (fun a b : Event => a.seqNo < b.seqNo)
        (EventLoop.scheduleAll {} evts).queue := by
      rw [hq0]; exact (assignSeqs_pairwise evts 0).1
    have hnd : List.Pairwise (fun a b : Event => a.seqNo ≠ b.seqNo)
        (EventLoop.scheduleAll {} evts).queue := hpq.imp (fun h => by omega)
    exact (List.Perm.pairwise_iff (fun h => Ne.symm h)
      (drainQueue_perm (EventLoop.scheduleAll {} evts).queue)).mpr hnd
  have := hsorted.and hseq
  refine this.imp ?_
  intro a b hab
  obtain ⟨h1, h2⟩ := hab
  simp only [eventLess, decide_eq_false_iff_not] at h1
  unfold dispatchBefore
  omega

/-! ### Claim C4: event-log round trip -/

/-- Encoded payloads are objects, never null. -/
theorem encodeOrder_not_null (o : Order) : (encodeOrder o).isNull = false := rfl

theorem encodeTrade_not_null (t : Trade) : (encodeTrade t).isNull = false := rfl

theorem encodeBBO_not_null (b : BBO) : (encodeBBO b).isNull = false := rfl

theorem encodeSignal_not_null (s : Signal) : (encodeSignal s).isNull = false := rfl

/-- Round trip of the Trade codec. -/
theorem decodeTrade_encodeTrade (t : Trade) :
    decodeTrade (encodeTrade t) = some t := by
  obtain ⟨f1, f2, f3, f4, f5, f6, f7, f8, f9, f10, f11⟩ := t
  by_cases h1 : f9 = 0 <;> by_cases h2 : f10 = 0 <;> by_cases h3 : f11 = 0 <;>
    simp [encodeTrade, decodeTrade, decField, List.lookup, decNat, decInt, decStr,
      h1, h2, h3, Rat.den_intCast, Rat.num_intCast]

/-- Round trip of the BBO codec. -/
theorem decodeBBO_encodeBBO (b : BBO) :
    decodeBBO (encodeBBO b) = some b := by
  simp [encodeBBO, decodeBBO, decField, List.lookup, decInt,
    Rat.den_intCast, Rat.num_intCast]

/-- Round trip of the Signal codec. -/
theorem decodeSignal_encodeSignal (s : Signal) :
    decodeSignal (encodeSignal s) = some s := by
  simp [encodeSignal, decodeSignal, decField, List.lookup, decRat, decInt,
    Rat.den_intCast, Rat.num_intCast]

/-- Round trip of the Order codec for orders whose Side is a valid
enum value (Side 0 — the zero value every Cancel order carries —
marshals as "SELL" and comes back as -1). -/
theorem decodeOrder_encodeOrder (o : Order) (h : o.side = buySide ∨ o.side = sellSide) :
    decodeOrder (encodeOrder o) = some o := by
  have hside : sideUnmarshal (sideMarshal o.side) = some o.side := by
    rcases h with h | h <;> rw [h] <;> rfl
  have hotype : otypeUnmarshal (otypeMarshal o.otype) = some o.otype := by
    cases o.otype <;> rfl
  obtain ⟨f1, f2, f3, f4, f5, f6, f7, f8, f9, f10, f11, f12⟩ := o
  by_cases h1 : f11 = 0 <;> by_cases h2 : f12 = 0 <;>
    simp [encodeOrder, decodeOrder, decField, List.lookup, decNat, decInt, decStr,
      h1, h2, hside, hotype, Rat.den_intCast, Rat.num_intCast]

/-- Round trip of the Event codec for events whose order payload (if
any) carries a valid Side. -/
theorem decodeEvent_encodeEvent (e : Event)
    (h : ∀ o, e.order = some o → o.side = buySide ∨ o.side = sellSide) :
    decodeEvent (encodeEvent e) = some e := by
  have hetype : etypeUnmarshal (etypeMarshal e.etype) = some e.etype := by
    cases e.etype <;> rfl
  have horder : ∀ o, e.order = some o → decodeOrder (encodeOrder o) = some o :=
    fun o ho => decodeOrder_encodeOrder o (h o ho)
  obtain ⟨f1, f2, f3, f4, f5, f6, f7, f8⟩ := e
  cases f5 with
  | none =>
    by_cases ht : f4 = "" <;> cases f6 <;> cases f7 <;> cases f8 <;>
      simp [encodeEvent, decodeEvent, decField, decPayload, List.lookup, decNat,
        decInt, decStr, ht, hetype,
        encodeOrder_not_null, encodeTrade_not_null, encodeBBO_not_null,
        encodeSignal_not_null,
        decodeTrade_encodeTrade, decodeBBO_encodeBBO, decodeSignal_encodeSignal,
        Rat.den_intCast, Rat.num_intCast]
  | some v =>
    have ho := horder v rfl
    by_cases ht : f4 = "" <;> cases f6 <;> cases f7 <;> cases f8 <;>
      simp [encodeEvent, decodeEvent, decField, decPayload, List.lookup, decNat,
        decInt, decStr, ht, hetype, ho,
        encodeOrder_not_null, encodeTrade_not_null, encodeBBO_not_null,
        encodeSignal_not_null,
        decodeTrade_encodeTrade, decodeBBO_encodeBBO, decodeSignal_encodeSignal,
        Rat.den_intCast, Rat.num_intCast]

/-- The C4 claim as stated, for reference in the counterexample: the
round trip is the identity on every event sequence. -/
theorem claim_C4_cex :
    ¬ (readLog (writeLog [cancelAckEvent]) = some [cancelAckEvent]) := by
  decide

/-- C4 amended: writing a sequence of events and reading it back
yields the written sequence, provided every order payload carries a
valid Side enum value (Buy or Sell). The zero-value Side every Cancel
order carries marshals as "SELL" and is read back as Sell, so the
claim fails as stated (claim_C4_cex). -/
theorem claim_C4_amended (events : List Event)
    (h : ∀ e ∈ events, ∀ o, e.order = some o → o.side = buySide ∨ o.side = sellSide) :
    readLog (writeLog events) = some events := by
  induction events with
  | nil => rfl
  | cons e rest ih =>
    have he : decodeEvent (encodeEvent e) = some e :=
      decodeEvent_encodeEvent e (h e (List.mem_cons_self e rest))
    have hrest : readLog (writeLog rest) = some rest :=
      ih (fun x hx o ho => h x (List.mem_cons_of_mem e hx) o ho)
    simp only [readLog, writeLog, List.map_cons, List.mapM_cons] at *
    rw [he, hrest]
    rfl

/-- C4 witness: a normal order-accepted event round-trips. -/
theorem claim_C4_amended_witness :
    (∀ e ∈ [cexBatch.headD {}], ∀ o, e.order = some o →
      o.side = buySide ∨ o.side = sellSide) ∧
    readLog (writeLog [cexBatch.headD {}]) = some [cexBatch.headD {}] :=
  ⟨by decide, claim_C4_amended [cexBatch.headD {}] (by decide)⟩

/-! ### Claim C1: the matching algorithm refines the specification's
prose. The walk equality is unconditional; insertion agrees wherever
the side's levels are sorted (sort.Search and the spec's "sorted
position" coincide exactly on sorted level lists). -/

/-- The spec's trade at position ahead+1 is the code's trade at index
ahead. -/
theorem specTrade_eq_mkTrade (tid2 : Nat) (inc passive : Order) (fill : Int)
    (i : Nat) (ts : Int) :
    specTrade tid2 inc passive fill (i + 1) ts = mkTrade tid2 inc passive fill i ts := by
  have hc : ((i + 1 : Nat) : Int) = (i : Int) + 1 := by push_cast; ring
  unfold specTrade mkTrade
  rw [hc]

/-- The spec walk with explicit 1-based position equals the code's
index-carrying walk. -/
theorem specWalkQueue_eq_walkLevel (ts : Int) :
    ∀ (queue ahead : List Order) (inc : Order) (idx : List Nat) (tid : Nat),
      specWalkQueue inc ahead (ahead.length + 1) queue idx tid ts =
        walkLevel inc ahead queue idx tid ts := by
  intro queue
  induction queue with
  | nil => intro ahead inc idx tid; rfl
  | cons passive rest ih =>
    intro ahead inc idx tid
    by_cases h : inc.remainingQty ≤ 0
    · have h2 : ¬ inc.remainingQty > 0 := by omega
      rw [walkLevel_cons_stop inc passive ahead rest idx tid ts h2]
      simp [specWalkQueue, h]
    · have h2 : inc.remainingQty > 0 := by omega
      by_cases hrm : passive.remainingQty - min64 inc.remainingQty passive.remainingQty ≤ 0
      · rw [walkLevel_cons_rm inc passive ahead rest idx tid ts h2 hrm]
        simp only [specWalkQueue, h, if_neg, if_false, hrm, if_pos,
          specTrade_eq_mkTrade, ih]
      · rw [walkLevel_cons_keep inc passive ahead rest idx tid ts h2 hrm]
        have ih2 := ih (ahead ++ [{ passive with
          remainingQty := passive.remainingQty - min64 inc.remainingQty passive.remainingQty }])
          { inc with remainingQty := inc.remainingQty - min64 inc.remainingQty passive.remainingQty }
          idx (tid + 1)
        simp only [List.length_append, List.length_cons, List.length_nil,
          Nat.zero_add] at ih2
        simp only [specWalkQueue, h, if_neg, if_false, hrm, if_pos,
          specTrade_eq_mkTrade]
        rw [ih2]

/-- The two price-stop conditions agree. -/
theorem specStop_eq_priceBreak (inc : Order) (p : Int) :
    (decide (inc.otype = OrderType.limit ∧ specWorse inc p = true)) = priceBreak inc p := by
  by_cases h1 : inc.otype = OrderType.limit <;>
    by_cases h2 : inc.side = buySide ∧ inc.price < p <;>
    by_cases h3 : inc.side = sellSide ∧ inc.price > p <;>
    simp [specWorse, priceBreak, h1, h2, h3]

/-- The spec traversal equals the code's. -/
theorem specMatchLevels_eq_matchLevels (ts : Int) :
    ∀ (levels : List PriceLevel) (inc : Order) (idx : List Nat) (tid : Nat),
      specMatchLevels inc levels idx tid ts = matchLevels inc levels idx tid ts := by
  intro levels
  induction levels with
  | nil => intro inc idx tid; rfl
  | cons level rest ih =>
    intro inc idx tid
    by_cases h : inc.remainingQty ≤ 0
    · have h2 : ¬ inc.remainingQty > 0 := by omega
      rw [matchLevels_stop inc level rest idx tid ts h2]
      simp [specMatchLevels, h]
    · have h2 : inc.remainingQty > 0 := by omega
      cases hb : priceBreak inc level.price with
      | true =>
        rw [matchLevels_break inc level rest idx tid ts h2 hb]
        have hs : inc.otype = OrderType.limit ∧ specWorse inc level.price = true := by
          have := specStop_eq_priceBreak inc level.price
          rw [hb] at this
          exact of_decide_eq_true this
        simp [specMatchLevels, h, hs]
      | false =>
        have hs : ¬ (inc.otype = OrderType.limit ∧ specWorse inc level.price = true) := by
          have := specStop_eq_priceBreak inc level.price
          rw [hb] at this
          exact of_decide_eq_false this
        have hwalk := specWalkQueue_eq_walkLevel ts level.orders [] inc idx tid
        simp only [List.length_nil] at hwalk
        cases hw : (walkLevel inc [] level.orders idx tid ts).orders with
        | nil =>
          rw [matchLevels_cont inc level rest idx tid ts h2 hb hw]
          simp only [specMatchLevels, h, if_neg, if_false, hs, hwalk, hw, ih]
        | cons o os =>
          rw [matchLevels_keep inc level rest idx tid ts h2 hb o os hw]
          simp only [specMatchLevels, h, if_neg, if_false, hs, hwalk, hw]

/-- A boundary index of a 0/1-monotone predicate is unique. -/
theorem boundary_unique (f : Nat → Bool) (n i1 i2 : Nat)
    (h1n : i1 ≤ n) (h2n : i2 ≤ n)
    (low1 : ∀ k, k < i1 → f k = false) (up1 : ∀ k, i1 ≤ k → k < n → f k = true)
    (low2 : ∀ k, k < i2 → f k = false) (up2 : ∀ k, i2 ≤ k → k < n → f k = true) :
    i1 = i2 := by
  rcases Nat.lt_trichotomy i1 i2 with h | h | h
  · have ht := up1 i1 (Nat.le_refl _) (by omega)
    have hf := low2 i1 h
    rw [ht] at hf
    exact absurd hf (by simp)
  · exact h
  · have ht := up2 i2 (Nat.le_refl _) (by omega)
    have hf := low1 i2 h
    rw [ht] at hf
    exact absurd hf (by simp)

/-- Prices are antitone along descending-sorted levels. -/
theorem sorted_desc_levelAt (levels : List PriceLevel)
    (hs : List.Pairwise (fun a c => c.price < a.price) levels) :
    ∀ k j, k ≤ j → j < levels.length →
      (levelAt levels j).price ≤ (levelAt levels k).price := by
  intro k j hkj hj
  rcases Nat.eq_or_lt_of_le hkj with he | hlt
  · subst he; exact le_refl _
  · have hk : k < levels.length := lt_trans hlt hj
    have := List.pairwise_iff_get.mp hs ⟨k, hk⟩ ⟨j, hj⟩ hlt
    have h1 : levelAt levels k = levels.get ⟨k, hk⟩ := List.getD_eq_get _ _ hk
    have h2 : levelAt levels j = levels.get ⟨j, hj⟩ := List.getD_eq_get _ _ hj
    rw [h1, h2]
    omega

/-- Prices are monotone along ascending-sorted levels. -/
theorem sorted_asc_levelAt (levels : List PriceLevel)
    (hs : List.Pairwise (fun a c => a.price < c.price) levels) :
    ∀ k j, k ≤ j → j < levels.length →
      (levelAt levels k).price ≤ (levelAt levels j).price := by
  intro k j hkj hj
  rcases Nat.eq_or_lt_of_le hkj with he | hlt
  · subst he; exact le_refl _
  · have hk : k < levels.length := lt_trans hlt hj
    have := List.pairwise_iff_get.mp hs ⟨k, hk⟩ ⟨j, hj⟩ hlt
    have h1 : levelAt levels k = levels.get ⟨k, hk⟩ := List.getD_eq_get _ _ hk
    have h2 : levelAt levels j = levels.get ⟨j, hj⟩ := List.getD_eq_get _ _ hj
    rw [h1, h2]
    omega

theorem insertPred_desc (levels : List PriceLevel) (o : Order) (i : Nat) :
    insertPred levels o true i = decide ((levelAt levels i).price ≤ o.price) := by
  simp [insertPred]

theorem insertPred_asc (levels : List PriceLevel) (o : Order) (i : Nat) :
    insertPred levels o false i = decide ((levelAt levels i).price ≥ o.price) := by
  simp [insertPred]

theorem insertPred_shift (l : PriceLevel) (rest : List PriceLevel) (o : Order)
    (d : Bool) (k : Nat) :
    insertPred (l :: rest) o d (k + 1) = insertPred rest o d k := by
  simp [insertPred, levelAt, List.getD_cons_succ]

theorem insertLevelAt_zero (levels : List PriceLevel) (x : PriceLevel) :
    insertLevelAt levels 0 x = x :: levels := by
  simp [insertLevelAt]

theorem insertLevelAt_succ (l : PriceLevel) (rest : List PriceLevel) (n : Nat)
    (x : PriceLevel) :
    insertLevelAt (l :: rest) (n + 1) x = l :: insertLevelAt rest n x := by
  simp [insertLevelAt, List.take_succ_cons, List.drop_succ_cons]

theorem levelAt_cons_zero (l : PriceLevel) (rest : List PriceLevel) :
    levelAt (l :: rest) 0 = l := rfl

theorem levelAt_cons_succ (l : PriceLevel) (rest : List PriceLevel) (k : Nat) :
    levelAt (l :: rest) (k + 1) = levelAt rest k := by
  simp [levelAt, List.getD_cons_succ]

/-- On a descending-sorted side, the binary-search insertion equals
the spec's linear sorted-position insertion. -/
theorem insertIntoLevels_desc_eq (o : Order) :
    ∀ (levels : List PriceLevel),
      List.Pairwise (fun a c => c.price < a.price) levels →
      insertIntoLevels levels o true = specInsertLevels levels o true := by
  intro levels
  induction levels with
  | nil => intro hs; rfl
  | cons l rest ih =>
    intro hs
    have hrest : List.Pairwise (fun a c => c.price < a.price) rest :=
      List.Pairwise.of_cons hs
    have hmono : ∀ k j, k ≤ j → j < (l :: rest).length →
        insertPred (l :: rest) o true k = true →
        insertPred (l :: rest) o true j = true := by
      intro k j hkj hj hk
      rw [insertPred_desc] at *
      simp only [decide_eq_true_eq] at *
      have := sorted_desc_levelAt (l :: rest) hs k j hkj hj
      omega
    obtain ⟨hle, hlow, hup⟩ := sortSearch_mono_spec (insertPred (l :: rest) o true)
      (l :: rest).length hmono
    by_cases hf0 : l.price ≤ o.price
    · have hf0t : insertPred (l :: rest) o true 0 = true := by
        rw [insertPred_desc, levelAt_cons_zero]
        simp only [decide_eq_true_eq]
        exact hf0
      have hidx : sortSearch (l :: rest).length (insertPred (l :: rest) o true) = 0 := by
        by_contra hne
        have h0 := hlow 0 (Nat.pos_of_ne_zero hne)
        rw [hf0t] at h0
        exact absurd h0 (by simp)
      simp only [List.length_cons] at hidx
      by_cases heq : l.price = o.price
      · simp [insertIntoLevels, hidx, specInsertLevels, heq, levelAt_cons_zero,
          List.set_cons_zero]
      · have hlt : l.price < o.price := lt_of_le_of_ne hf0 heq
        simp [insertIntoLevels, hidx, specInsertLevels, heq, hlt, levelAt_cons_zero,
          insertLevelAt_zero]
    · have hf0f : insertPred (l :: rest) o true 0 = false := by
        rw [insertPred_desc, levelAt_cons_zero]
        simp only [decide_eq_false_iff_not]
        exact hf0
      have hmonoR : ∀ k j, k ≤ j → j < rest.length →
          insertPred rest o true k = true → insertPred rest o true j = true := by
        intro k j hkj hj hk
        rw [insertPred_desc] at *
        simp only [decide_eq_true_eq] at *
        have := sorted_desc_levelAt rest hrest k j hkj hj
        omega
      obtain ⟨rle, rlow, rup⟩ := sortSearch_mono_spec (insertPred rest o true)
        rest.length hmonoR
      set m := sortSearch rest.length (insertPred rest o true) with hm
      have hidx : sortSearch (l :: rest).length (insertPred (l :: rest) o true)
          = m + 1 := by
        refine boundary_unique (insertPred (l :: rest) o true) (l :: rest).length
          _ (m + 1) hle (by simp only [List.length_cons]; omega) hlow hup ?_ ?_
        · intro k hk
          cases k with
          | zero => exact hf0f
          | succ k2 =>
            rw [insertPred_shift]
            exact rlow k2 (by omega)
        · intro k hk1 hk2
          cases k with
          | zero => omega
          | succ k2 =>
            rw [insertPred_shift]
            exact rup k2 (by omega) (by simp only [List.length_cons] at hk2; omega)
      have hne : ¬ l.price = o.price := by omega
      have hnlt : ¬ l.price < o.price := by omega
      have hspec : specInsertLevels (l :: rest) o true =
          l :: specInsertLevels rest o true := by
        simp [specInsertLevels, hne, hnlt]
      rw [hspec, ← ih hrest]
      simp only [insertIntoLevels, hidx, ← hm]
      by_cases hmlen : m < rest.length
      · have hcons : m + 1 < (l :: rest).length := by
          simp only [List.length_cons]; omega
        simp only [hcons, if_pos, hmlen, levelAt_cons_succ]
        by_cases hpeq : (levelAt rest m).price = o.price
        · simp [hpeq, List.set_cons_succ]
        · simp [hpeq, insertLevelAt_succ]
      · have hcons : ¬ (m + 1 < (l :: rest).length) := by
          simp only [List.length_cons]; omega
        simp [hcons, hmlen, insertLevelAt_succ]

/-- On an ascending-sorted side, the binary-search insertion equals
the spec's linear sorted-position insertion. -/
theorem insertIntoLevels_asc_eq (o : Order) :
    ∀ (levels : List PriceLevel),
      List.Pairwise (fun a c => a.price < c.price) levels →
      insertIntoLevels levels o false = specInsertLevels levels o false := by
  intro levels
  induction levels with
  | nil => intro hs; rfl
  | cons l rest ih =>
    intro hs
    have hrest : List.Pairwise (fun a c => a.price < c.price) rest :=
      List.Pairwise.of_cons hs
    have hmono : ∀ k j, k ≤ j → j < (l :: rest).length →
        insertPred (l :: rest) o false k = true →
        insertPred (l :: rest) o false j = true := by
      intro k j hkj hj hk
      rw [insertPred_asc] at *
      simp only [decide_eq_true_eq] at *
      have := sorted_asc_levelAt (l :: rest) hs k j hkj hj
      omega
    obtain ⟨hle, hlow, hup⟩ := sortSearch_mono_spec (insertPred (l :: rest) o false)
      (l :: rest).length hmono
    by_cases hf0 : l.price ≥ o.price
    · have hf0t : insertPred (l :: rest) o false 0 = true := by
        rw [insertPred_asc, levelAt_cons_zero]
        simp only [decide_eq_true_eq]
        exact hf0
      have hidx : sortSearch (l :: rest).length (insertPred (l :: rest) o false) = 0 := by
        by_contra hne
        have h0 := hlow 0 (Nat.pos_of_ne_zero hne)
        rw [hf0t] at h0
        exact absurd h0 (by simp)
      simp only [List.length_cons] at hidx
      by_cases heq : l.price = o.price
      · simp [insertIntoLevels, hidx, specInsertLevels, heq, levelAt_cons_zero,
          List.set_cons_zero]
      · have hlt : l.price > o.price := lt_of_le_of_ne hf0 (fun he => heq he.symm)
        have hnlt : ¬ l.price < o.price := by omega
        simp [insertIntoLevels, hidx, specInsertLevels, heq, hlt, hnlt,
          levelAt_cons_zero, insertLevelAt_zero]
    · have hf0f : insertPred (l :: rest) o false 0 = false := by
        rw [insertPred_asc, levelAt_cons_zero]
        simp only [decide_eq_false_iff_not]
        exact hf0
      have hmonoR : ∀ k j, k ≤ j → j < rest.length →
          insertPred rest o false k = true → insertPred rest o false j = true := by
        intro k j hkj hj hk
        rw [insertPred_asc] at *
        simp only [decide_eq_true_eq] at *
        have := sorted_asc_levelAt rest hrest k j hkj hj
        omega
      obtain ⟨rle, rlow, rup⟩ := sortSearch_mono_spec (insertPred rest o false)
        rest.length hmonoR
      set m := sortSearch rest.length (insertPred rest o false) with hm
      have hidx : sortSearch (l :: rest).length (insertPred (l :: rest) o false)
          = m + 1 := by
        refine boundary_unique (insertPred (l :: rest) o false) (l :: rest).length
          _ (m + 1) hle (by simp only [List.length_cons]; omega) hlow hup ?_ ?_
        · intro k hk
          cases k with
          | zero => exact hf0f
          | succ k2 =>
            rw [insertPred_shift]
            exact rlow k2 (by omega)
        · intro k hk1 hk2
          cases k with
          | zero => omega
          | succ k2 =>
            rw [insertPred_shift]
            exact rup k2 (by omega) (by simp only [List.length_cons] at hk2; omega)
      have hne : ¬ l.price = o.price := by omega
      have hngt : ¬ o.price < l.price := by omega
      have hspec : specInsertLevels (l :: rest) o false =
          l :: specInsertLevels rest o false := by
        simp [specInsertLevels, hne, hngt]
      rw [hspec, ← ih hrest]
      simp only [insertIntoLevels, hidx, ← hm]
      by_cases hmlen : m < rest.length
      · have hcons : m + 1 < (l :: rest).length := by
          simp only [List.length_cons]; omega
        simp only [hcons, if_pos, hmlen, levelAt_cons_succ]
        by_cases hpeq : (levelAt rest m).price = o.price
        · simp [hpeq, List.set_cons_succ]
        · simp [hpeq, insertLevelAt_succ]
      · have hcons : ¬ (m + 1 < (l :: rest).length) := by
          simp only [List.length_cons]; omega
        simp [hcons, hmlen, insertLevelAt_succ]

/-- processMarket refines the spec's market algorithm on every
book. -/
theorem processMarket_eq_spec (b : Book) (o : Order) (ts : Int) :
    b.processMarket o ts = specProcessMarket b o ts := by
  by_cases hs : o.side = buySide
  · have hcond : ({ o with remainingQty := o.qty } : Order).side = buySide := hs
    simp only [Book.processMarket, specProcessMarket, if_pos hcond,
      matchIncoming_buy b { o with remainingQty := o.qty } ts hs,
      specMatchLevels_eq_matchLevels]
  · have hcond : ¬ ({ o with remainingQty := o.qty } : Order).side = buySide := hs
    simp only [Book.processMarket, specProcessMarket, if_neg hcond,
      matchIncoming_sell b { o with remainingQty := o.qty } ts hs,
      specMatchLevels_eq_matchLevels]

/-- processLimit refines the spec's limit algorithm whenever the side
that would receive the remainder is sorted (its match side may be
arbitrary). -/
theorem processLimit_eq_spec (b : Book) (o : Order) (ts : Int)
    (hbids : List.Pairwise (fun a c => c.price < a.price) b.bids)
    (hasks : List.Pairwise (fun a c => a.price < c.price) b.asks) :
    b.processLimit o ts = specProcessLimit b o ts := by
  by_cases hs : o.side = buySide
  · have hcond : ({ o with remainingQty := o.qty } : Order).side = buySide := hs
    have hstat := matchLevels_inc_static ts b.asks { o with remainingQty := o.qty }
      b.orderIndex b.nextTradeID
    have hside2 : (matchLevels { o with remainingQty := o.qty } b.asks b.orderIndex
        b.nextTradeID ts).inc.side = buySide := by rw [hstat]; exact hs
    simp only [Book.processLimit, specProcessLimit, if_pos hcond,
      matchIncoming_buy b { o with remainingQty := o.qty } ts hs,
      specMatchLevels_eq_matchLevels, if_pos hside2]
    split
    · simp only [Book.insert, if_pos hside2,
        insertIntoLevels_desc_eq _ _ hbids]
    · rfl
  · have hcond : ¬ ({ o with remainingQty := o.qty } : Order).side = buySide := hs
    have hstat := matchLevels_inc_static ts b.bids { o with remainingQty := o.qty }
      b.orderIndex b.nextTradeID
    have hside2 : ¬ (matchLevels { o with remainingQty := o.qty } b.bids b.orderIndex
        b.nextTradeID ts).inc.side = buySide := by rw [hstat]; exact hs
    simp only [Book.processLimit, specProcessLimit, if_neg hcond,
      matchIncoming_sell b { o with remainingQty := o.qty } ts hs,
      specMatchLevels_eq_matchLevels, if_neg hside2]
    split
    · simp only [Book.insert, if_neg hside2,
        insertIntoLevels_asc_eq _ _ hasks]
    · rfl

/-- C1: on a book whose sides are sorted (a book invariant), the
matching engine's processing of Limit and Market orders equals the
specification's prose algorithm, transcribed independently: walk the
opposite side from the best level outward in FIFO order, fill
min(incoming, passive) at the passive's price carrying the passive's
1-based index at the moment of fill, rest a limit remainder at its
price's sorted position, and discard a market remainder. -/
theorem claim_C1 (b : Book) (o : Order) (ts : Int)
    (hbids : List.Pairwise (fun a c => c.price < a.price) b.bids)
    (hasks : List.Pairwise (fun a c => a.price < c.price) b.asks) :
    b.processLimit o ts = specProcessLimit b o ts ∧
    b.processMarket o ts = specProcessMarket b o ts :=
  ⟨processLimit_eq_spec b o ts hbids hasks, processMarket_eq_spec b o ts⟩

/-- C1 witness: the concrete book, a crossing buy limit. -/
theorem claim_C1_witness :
    (List.Pairwise (fun a c => c.price < a.price) witBook.bids ∧
      List.Pairwise (fun a c => a.price < c.price) witBook.asks) ∧
    (witBook.processLimit (wBuy 9 12 101) 5 = specProcessLimit witBook (wBuy 9 12 101) 5 ∧
      witBook.processMarket (wBuyMkt 9 12) 5 = specProcessMarket witBook (wBuyMkt 9 12) 5) := by
  refine ⟨⟨by decide, by decide⟩, ?_, ?_⟩
  · exact (claim_C1 witBook (wBuy 9 12 101) 5 (by decide) (by decide)).1
  · exact (claim_C1 witBook (wBuyMkt 9 12) 5 (by decide) (by decide)).2

/-! ### Book well-formedness: generic level-list lemmas (claims C2, C10) -/

theorem flattenOrders_append (a b : List PriceLevel) :
    flattenOrders (a ++ b) = flattenOrders a ++ flattenOrders b := by
  induction a with
  | nil => rfl
  | cons l rest ih => simp [flattenOrders_cons, ih]

theorem mem_flattenOrders (levels : List PriceLevel) (x : Order) :
    x ∈ flattenOrders levels ↔ ∃ l ∈ levels, x ∈ l.orders := by
  induction levels with
  | nil => simp [flattenOrders]
  | cons l rest ih => simp [flattenOrders_cons, ih]

theorem flattenIds_cons (l : PriceLevel) (rest : List PriceLevel) :
    flattenIds (l :: rest) = l.orders.map (fun x => x.id) ++ flattenIds rest := by
  simp [flattenIds, flattenOrders_cons]

theorem flattenIds_append (a b : List PriceLevel) :
    flattenIds (a ++ b) = flattenIds a ++ flattenIds b := by
  simp [flattenIds, flattenOrders_append]

theorem allOrders_ids (b : Book) :
    b.allOrders.map (fun x => x.id) = flattenIds b.bids ++ flattenIds b.asks := by
  simp [Book.allOrders, flattenIds]

theorem ids_filter_comm (os : List Order) (i : Nat) :
    (os.filter (fun x => ¬ x.id = i)).map (fun x => x.id) =
      (os.map (fun x => x.id)).filter (fun k => ¬ k = i) := by
  rw [List.filter_map]
  rfl

theorem headPrice_cons (l : PriceLevel) (rest : List PriceLevel) :
    headPrice (l :: rest) = l.price := rfl

/-- In a descending-sorted side every level's price is at most the
head price. -/
theorem mem_price_le_headPrice (levels : List PriceLevel)
    (hs : List.Pairwise (fun a c => c.price < a.price) levels)
    (l : PriceLevel) (hm : l ∈ levels) : l.price ≤ headPrice levels := by
  cases levels with
  | nil => cases hm
  | cons l0 rest =>
    rcases List.mem_cons.mp hm with he | ht
    · rw [he, headPrice_cons]
    · have := (List.pairwise_cons.mp hs).1 l ht
      rw [headPrice_cons]
      omega

/-- In an ascending-sorted side the head price is at most every
level's price. -/
theorem headPrice_le_mem_price (levels : List PriceLevel)
    (hs : List.Pairwise (fun a c => a.price < c.price) levels)
    (l : PriceLevel) (hm : l ∈ levels) : headPrice levels ≤ l.price := by
  cases levels with
  | nil => cases hm
  | cons l0 rest =>
    rcases List.mem_cons.mp hm with he | ht
    · rw [he, headPrice_cons]
    · have := (List.pairwise_cons.mp hs).1 l ht
      rw [headPrice_cons]
      omega

/-- The adjacent-pairs loop accepts any pairwise-sorted list. -/
theorem chainRel_of_pairwise (rel : Int → Int → Prop) [DecidableRel rel] :
    ∀ xs : List Int, xs.Pairwise rel → chainRel rel xs = true := by
  intro xs
  induction xs with
  | nil => intro _; rfl
  | cons a t ih =>
    intro hp
    cases t with
    | nil => rfl
    | cons c rest =>
      have h1 : rel a c := (List.pairwise_cons.mp hp).1 c (List.mem_cons_self c rest)
      have h2 := ih (List.pairwise_cons.mp hp).2
      simp [chainRel, h1, h2]

theorem eraseIdLevels_nil (i : Nat) : eraseIdLevels [] i = [] := rfl

theorem eraseIdLevels_cons (l : PriceLevel) (rest : List PriceLevel) (i : Nat) :
    eraseIdLevels (l :: rest) i =
      if (l.orders.filter (fun x => ¬ x.id = i)).isEmpty then eraseIdLevels rest i
      else { l with orders := l.orders.filter (fun x => ¬ x.id = i) } ::
        eraseIdLevels rest i := by
  simp only [eraseIdLevels, List.map_cons, List.filter_cons]
  cases hfe : l.orders.filter (fun x => ¬ x.id = i) with
  | nil => simp [hfe]
  | cons y ys => simp [hfe]

theorem eraseIdLevels_flatten (i : Nat) :
    ∀ levels : List PriceLevel,
      flattenOrders (eraseIdLevels levels i) =
        (flattenOrders levels).filter (fun x => ¬ x.id = i) := by
  intro levels
  induction levels with
  | nil => rfl
  | cons l rest ih =>
    rw [eraseIdLevels_cons]
    by_cases h : (l.orders.filter (fun x => ¬ x.id = i)).isEmpty
    · have he : l.orders.filter (fun x => ¬ x.id = i) = [] := List.isEmpty_iff.mp h
      rw [if_pos h, flattenOrders_cons, List.filter_append, he, ih]
      rfl
    · rw [if_neg h]
      simp [flattenOrders_cons, List.filter_append, ih]

theorem eraseIdLevels_no_occurrence (i : Nat) :
    ∀ levels : List PriceLevel,
      (∀ l ∈ levels, l.orders ≠ []) →
      (∀ x ∈ flattenOrders levels, ¬ x.id = i) →
      eraseIdLevels levels i = levels := by
  intro levels
  induction levels with
  | nil => intro _ _; rfl
  | cons l rest ih =>
    intro hne hno
    rw [eraseIdLevels_cons]
    have hself : l.orders.filter (fun x => ¬ x.id = i) = l.orders := by
      apply List.filter_eq_self.mpr
      intro a ha
      simpa using hno a (by rw [flattenOrders_cons]; exact List.mem_append_left _ ha)
    rw [hself]
    have hni : ¬ (l.orders.isEmpty = true) := by
      simpa [List.isEmpty_iff] using hne l (List.mem_cons_self l rest)
    rw [if_neg hni]
    have hr := ih (fun l2 hl2 => hne l2 (List.mem_cons_of_mem _ hl2))
      (fun x hx => hno x (by rw [flattenOrders_cons]; exact List.mem_append_right _ hx))
    rw [hr]

theorem eraseIdLevels_prices_sublist (i : Nat) :
    ∀ levels : List PriceLevel,
      List.Sublist ((eraseIdLevels levels i).map (fun l => l.price))
        (levels.map (fun l => l.price)) := by
  intro levels
  induction levels with
  | nil => exact List.Sublist.refl _
  | cons l rest ih =>
    rw [eraseIdLevels_cons]
    by_cases h : (l.orders.filter (fun x => ¬ x.id = i)).isEmpty
    · rw [if_pos h]
      exact ih.trans (List.sublist_cons_self _ _)
    · rw [if_neg h]
      simpa using List.Sublist.cons₂ l.price ih

theorem eraseIdLevels_levelsWF (P : Order → Prop) (i : Nat) :
    ∀ levels : List PriceLevel,
      levelsWF P levels → levelsWF P (eraseIdLevels levels i) := by
  intro levels
  induction levels with
  | nil => intro _ l hl; cases hl
  | cons l rest ih =>
    intro h
    have hl0 := h l (List.mem_cons_self l rest)
    have hrest : levelsWF P rest := fun l2 hl2 => h l2 (List.mem_cons_of_mem _ hl2)
    rw [eraseIdLevels_cons]
    by_cases hc : (l.orders.filter (fun x => ¬ x.id = i)).isEmpty
    · rw [if_pos hc]; exact ih hrest
    · rw [if_neg hc]
      intro l2 hl2
      rcases List.mem_cons.mp hl2 with he | ht
      · subst he
        refine ⟨by simpa [List.isEmpty_iff] using hc, ?_⟩
        intro x hx
        have hx0 : x ∈ l.orders := List.mem_of_mem_filter hx
        exact hl0.2 x hx0
      · exact ih hrest l2 ht

theorem removeFirstId_eq_filter :
    ∀ (os : List Order) (i : Nat), (os.map (fun x => x.id)).Nodup →
      removeFirstId os i = os.filter (fun x => ¬ x.id = i) := by
  intro os
  induction os with
  | nil => intro i _; rfl
  | cons a t ih =>
    intro i hnd
    simp only [List.map_cons, List.nodup_cons] at hnd
    by_cases h : a.id = i
    · have hself : t.filter (fun x => ¬ x.id = i) = t := by
        apply List.filter_eq_self.mpr
        intro x hx
        have hmem : x.id ∈ t.map (fun y => y.id) := List.mem_map_of_mem _ hx
        have hne : ¬ x.id = i := by
          intro he
          exact hnd.1 (by rw [h, ← he]; exact hmem)
        simpa using hne
      simp only [decide_not] at hself
      simp [removeFirstId, h, List.filter_cons, hself]
    · simp [removeFirstId, h, List.filter_cons, ih i hnd.2]

/-! ### Claim C10: a cancel's frame effect -/

theorem removeOrderLoop_cons_hit (l : PriceLevel) (rest : List PriceLevel) (o : Order)
    (hp : l.price = o.price) (hany : l.orders.any (fun x => x.id = o.id)) :
    removeOrderLoop (l :: rest) o =
      (if (removeFirstId l.orders o.id).isEmpty then rest
       else { l with orders := removeFirstId l.orders o.id } :: rest) := by
  simp [removeOrderLoop, hp, hany]

theorem removeOrderLoop_cons_noany (l : PriceLevel) (rest : List PriceLevel) (o : Order)
    (hp : l.price = o.price) (hany : ¬ l.orders.any (fun x => x.id = o.id)) :
    removeOrderLoop (l :: rest) o = l :: removeOrderLoop rest o := by
  simp [removeOrderLoop, hp, hany]

theorem removeOrderLoop_cons_nop (l : PriceLevel) (rest : List PriceLevel) (o : Order)
    (hp : ¬ l.price = o.price) :
    removeOrderLoop (l :: rest) o = l :: removeOrderLoop rest o := by
  simp [removeOrderLoop, hp]

/-- A successful index lookup returns a resting order bearing the
looked-up id. -/
theorem lookupIndex_mem (b : Book) (id : Nat) (t : Order)
    (h : b.lookupIndex id = some t) : t ∈ b.allOrders ∧ t.id = id := by
  unfold Book.lookupIndex at h
  by_cases hc : b.orderIndex.contains id
  · rw [if_pos hc] at h
    refine ⟨List.mem_of_find?_eq_some h, ?_⟩
    have := List.find?_some h
    simpa using this
  · rw [if_neg hc] at h
    cases h

/-- Under the book invariant the removal loop removes exactly the
target id's order, in place. -/
theorem removeOrderLoop_eq_erase (o : Order) :
    ∀ levels : List PriceLevel,
      (∀ l ∈ levels, ∀ x ∈ l.orders, x.price = l.price) →
      (∀ l ∈ levels, l.orders ≠ []) →
      (flattenIds levels).Nodup →
      (∀ x ∈ flattenOrders levels, x.id = o.id → x.price = o.price) →
      removeOrderLoop levels o = eraseIdLevels levels o.id := by
  intro levels
  induction levels with
  | nil => intro _ _ _ _; rfl
  | cons l rest ih =>
    intro hcoh hne hnd hocc
    have hcoh0 : ∀ x ∈ l.orders, x.price = l.price := hcoh l (List.mem_cons_self l rest)
    have hner : ∀ l2 ∈ rest, l2.orders ≠ [] :=
      fun l2 h2 => hne l2 (List.mem_cons_of_mem _ h2)
    have hcohr : ∀ l2 ∈ rest, ∀ x ∈ l2.orders, x.price = l2.price :=
      fun l2 h2 => hcoh l2 (List.mem_cons_of_mem _ h2)
    have hndflat := hnd
    rw [flattenIds_cons] at hndflat
    have hnd0 : (l.orders.map (fun x => x.id)).Nodup := (List.nodup_append.mp hndflat).1
    have hndr : (flattenIds rest).Nodup := (List.nodup_append.mp hndflat).2.1
    have hdisj : (l.orders.map (fun x => x.id)).Disjoint (flattenIds rest) :=
      (List.nodup_append.mp hndflat).2.2
    have hoccr : ∀ x ∈ flattenOrders rest, x.id = o.id → x.price = o.price :=
      fun x hx => hocc x (by rw [flattenOrders_cons]; exact List.mem_append_right _ hx)
    have hni : ¬ (l.orders.isEmpty = true) := by
      simpa [List.isEmpty_iff] using hne l (List.mem_cons_self l rest)
    by_cases hp : l.price = o.price
    · by_cases hany : l.orders.any (fun x => x.id = o.id)
      · obtain ⟨y, hy, hyid⟩ := List.any_eq_true.mp hany
        have hyid2 : y.id = o.id := by simpa using hyid
        have hnorest : ∀ x ∈ flattenOrders rest, ¬ x.id = o.id := by
          intro x hx he
          have hxid : x.id ∈ flattenIds rest := by
            rw [flattenIds]; exact List.mem_map_of_mem _ hx
          have hyx : y.id = x.id := by rw [hyid2, he]
          exact hdisj (List.mem_map_of_mem _ hy) (by rw [hyx]; exact hxid)
        have herest : eraseIdLevels rest o.id = rest :=
          eraseIdLevels_no_occurrence o.id rest hner hnorest
        rw [removeOrderLoop_cons_hit l rest o hp hany,
          removeFirstId_eq_filter l.orders o.id hnd0, eraseIdLevels_cons, herest]
      · have hnol : ∀ x ∈ l.orders, ¬ x.id = o.id := by
          intro x hx he
          exact hany (List.any_eq_true.mpr ⟨x, hx, by simpa using he⟩)
        have hself : l.orders.filter (fun x => ¬ x.id = o.id) = l.orders :=
          List.filter_eq_self.mpr (fun a ha => by simpa using hnol a ha)
        rw [removeOrderLoop_cons_noany l rest o hp hany, eraseIdLevels_cons, hself,
          if_neg hni, ih hcohr hner hndr hoccr]
    · have hnol : ∀ x ∈ l.orders, ¬ x.id = o.id := by
        intro x hx he
        refine hp ?_
        rw [← hcoh0 x hx]
        exact hocc x (by rw [flattenOrders_cons]; exact List.mem_append_left _ hx) he
      have hself : l.orders.filter (fun x => ¬ x.id = o.id) = l.orders :=
        List.filter_eq_self.mpr (fun a ha => by simpa using hnol a ha)
      rw [removeOrderLoop_cons_nop l rest o hp, eraseIdLevels_cons, hself,
        if_neg hni, ih hcohr hner hndr hoccr]

theorem removeOrder_orderIndex (b : Book) (o : Order) :
    (b.removeOrder o).orderIndex = b.orderIndex := by
  unfold Book.removeOrder; split <;> rfl

theorem removeOrder_nextTradeID (b : Book) (o : Order) :
    (b.removeOrder o).nextTradeID = b.nextTradeID := by
  unfold Book.removeOrder; split <;> rfl

theorem removeOrder_buy (b : Book) (o : Order) (h : o.side = buySide) :
    (b.removeOrder o).bids = removeOrderLoop b.bids o ∧
      (b.removeOrder o).asks = b.asks := by
  unfold Book.removeOrder
  rw [if_pos h]
  exact ⟨rfl, rfl⟩

theorem removeOrder_sell (b : Book) (o : Order) (h : ¬ o.side = buySide) :
    (b.removeOrder o).asks = removeOrderLoop b.asks o ∧
      (b.removeOrder o).bids = b.bids := by
  unfold Book.removeOrder
  rw [if_neg h]
  exact ⟨rfl, rfl⟩

/-- processCancel on a located, still-live target: the book passed on
is the removal result with the id deleted from the index. -/
theorem processCancel_some (b : Book) (c : Order) (target : Order)
    (hl : b.lookupIndex c.cancelId = some target) (hq : 0 < target.remainingQty) :
    b.processCancel c =
      ([], ({ b.removeOrder { target with remainingQty := 0 } with
              orderIndex := idxDelete b.orderIndex target.id }).bbo,
       { b.removeOrder { target with remainingQty := 0 } with
         orderIndex := idxDelete b.orderIndex target.id }) := by
  unfold Book.processCancel
  rw [hl]
  dsimp only
  rw [if_neg (by omega : ¬ target.remainingQty ≤ 0), removeOrder_orderIndex]

/-- Under the book invariant the lookup target is still live and rests
on the side its Side field selects. -/
theorem lookup_target_facts (b : Book) (id : Nat) (target : Order)
    (hwf : b.WF) (hl : b.lookupIndex id = some target) :
    0 < target.remainingQty ∧
      (target.side = buySide → target ∈ flattenOrders b.bids) ∧
      (¬ target.side = buySide → target ∈ flattenOrders b.asks) := by
  obtain ⟨h1, h2, h3, h4, h5, h6, h7⟩ := hwf
  obtain ⟨hmem, hid⟩ := lookupIndex_mem b id target hl
  unfold Book.allOrders at hmem
  rcases List.mem_append.mp hmem with hb | ha
  · obtain ⟨l, hlm, hxm⟩ := (mem_flattenOrders _ _).mp hb
    have hx := (h4 l hlm).2 target hxm
    exact ⟨hx.2.2, fun _ => hb, fun hns => absurd hx.2.1 hns⟩
  · obtain ⟨l, hlm, hxm⟩ := (mem_flattenOrders _ _).mp ha
    have hx := (h5 l hlm).2 target hxm
    exact ⟨hx.2.2, fun hbs => absurd hbs hx.2.1, fun _ => ha⟩

/-- C10: cancelling a resident order affects only that order. The
cancel produces no trades and leaves the trade-id counter untouched;
the target's side becomes the in-place erasure of the target's id
(every other order keeps its remaining quantity, stays at its price
level and keeps its position relative to the other survivors, as the
closing filter equation states); the other side is untouched; and the
order index loses exactly the target's key. -/
theorem claim_C10 (b : Book) (c : Order) (target : Order)
    (hwf : b.WF) (hl : b.lookupIndex c.cancelId = some target) :
    (b.processCancel c).1 = [] ∧
    (b.processCancel c).2.2.nextTradeID = b.nextTradeID ∧
    (b.processCancel c).2.2.orderIndex = idxDelete b.orderIndex target.id ∧
    (if target.side = buySide then
        (b.processCancel c).2.2.bids = eraseIdLevels b.bids target.id ∧
        (b.processCancel c).2.2.asks = b.asks
      else
        (b.processCancel c).2.2.asks = eraseIdLevels b.asks target.id ∧
        (b.processCancel c).2.2.bids = b.bids) ∧
    flattenOrders
        (eraseIdLevels (if target.side = buySide then b.bids else b.asks) target.id) =
      (flattenOrders (if target.side = buySide then b.bids else b.asks)).filter
        (fun x => ¬ x.id = target.id) := by
  obtain ⟨hpos, hsb, hsa⟩ := lookup_target_facts b c.cancelId target hwf hl
  have hpc := processCancel_some b c target hl hpos
  obtain ⟨hb1, hb2, hb3, hb4, hb5, hb6, hb7⟩ := hwf
  have hnda : (flattenIds b.bids ++ flattenIds b.asks).Nodup := by
    rw [← allOrders_ids]; exact hb6
  have hndb : (flattenIds b.bids).Nodup := (List.nodup_append.mp hnda).1
  have hnds : (flattenIds b.asks).Nodup := (List.nodup_append.mp hnda).2.1
  rw [hpc]
  refine ⟨rfl, removeOrder_nextTradeID b _, rfl, ?_, eraseIdLevels_flatten target.id _⟩
  by_cases hs : target.side = buySide
  · rw [if_pos hs]
    have hrm := removeOrder_buy b { target with remainingQty := 0 } hs
    have htall : target ∈ b.allOrders := by
      unfold Book.allOrders
      exact List.mem_append_left _ (hsb hs)
    have hocc : ∀ x ∈ flattenOrders b.bids,
        x.id = ({ target with remainingQty := 0 } : Order).id →
        x.price = ({ target with remainingQty := 0 } : Order).price := by
      intro x hx he
      have hxall : x ∈ b.allOrders := by
        unfold Book.allOrders
        exact List.mem_append_left _ hx
      have hx2 : x = target := List.inj_on_of_nodup_map hb6 hxall htall he
      rw [hx2]
    have herase := removeOrderLoop_eq_erase { target with remainingQty := 0 } b.bids
      (fun l hl2 x hx => ((hb4 l hl2).2 x hx).1) (fun l hl2 => (hb4 l hl2).1) hndb hocc
    constructor
    · have hproj : ({ b.removeOrder { target with remainingQty := 0 } with
          orderIndex := idxDelete b.orderIndex target.id }).bids
        = (b.removeOrder { target with remainingQty := 0 }).bids := rfl
      rw [hproj, hrm.1, herase]
    · have hproj : ({ b.removeOrder { target with remainingQty := 0 } with
          orderIndex := idxDelete b.orderIndex target.id }).asks
        = (b.removeOrder { target with remainingQty := 0 }).asks := rfl
      rw [hproj, hrm.2]
  · rw [if_neg hs]
    have hrm := removeOrder_sell b { target with remainingQty := 0 } hs
    have htall : target ∈ b.allOrders := by
      unfold Book.allOrders
      exact List.mem_append_right _ (hsa hs)
    have hocc : ∀ x ∈ flattenOrders b.asks,
        x.id = ({ target with remainingQty := 0 } : Order).id →
        x.price = ({ target with remainingQty := 0 } : Order).price := by
      intro x hx he
      have hxall : x ∈ b.allOrders := by
        unfold Book.allOrders
        exact List.mem_append_right _ hx
      have hx2 : x = target := List.inj_on_of_nodup_map hb6 hxall htall he
      rw [hx2]
    have herase := removeOrderLoop_eq_erase { target with remainingQty := 0 } b.asks
      (fun l hl2 x hx => ((hb5 l hl2).2 x hx).1) (fun l hl2 => (hb5 l hl2).1) hnds hocc
    constructor
    · have hproj : ({ b.removeOrder { target with remainingQty := 0 } with
          orderIndex := idxDelete b.orderIndex target.id }).asks
        = (b.removeOrder { target with remainingQty := 0 }).asks := rfl
      rw [hproj, hrm.1, herase]
    · have hproj : ({ b.removeOrder { target with remainingQty := 0 } with
          orderIndex := idxDelete b.orderIndex target.id }).bids
        = (b.removeOrder { target with remainingQty := 0 }).bids := rfl
      rw [hproj, hrm.2]

/-- C10 witness: cancelling the resting ask id 2 on the concrete
book. -/
theorem claim_C10_witness :
    (witBook.WF ∧
      witBook.lookupIndex 2 = some { wSell 2 6 100 with remainingQty := 6 }) ∧
      ((witBook.processCancel { otype := OrderType.cancel, cancelId := 2 }).1 = [] ∧
        (witBook.processCancel { otype := OrderType.cancel, cancelId := 2 }).2.2.nextTradeID
          = witBook.nextTradeID ∧
        (witBook.processCancel { otype := OrderType.cancel, cancelId := 2 }).2.2.orderIndex
          = idxDelete witBook.orderIndex ({ wSell 2 6 100 with remainingQty := 6 } : Order).id ∧
        (if ({ wSell 2 6 100 with remainingQty := 6 } : Order).side = buySide then
            (witBook.processCancel { otype := OrderType.cancel, cancelId := 2 }).2.2.bids
                = eraseIdLevels witBook.bids ({ wSell 2 6 100 with remainingQty := 6 } : Order).id ∧
              (witBook.processCancel { otype := OrderType.cancel, cancelId := 2 }).2.2.asks
                = witBook.asks
          else
            (witBook.processCancel { otype := OrderType.cancel, cancelId := 2 }).2.2.asks
                = eraseIdLevels witBook.asks ({ wSell 2 6 100 with remainingQty := 6 } : Order).id ∧
              (witBook.processCancel { otype := OrderType.cancel, cancelId := 2 }).2.2.bids
                = witBook.bids) ∧
        flattenOrders
            (eraseIdLevels
              (if ({ wSell 2 6 100 with remainingQty := 6 } : Order).side = buySide then
                witBook.bids else witBook.asks)
              ({ wSell 2 6 100 with remainingQty := 6 } : Order).id) =
          (flattenOrders
              (if ({ wSell 2 6 100 with remainingQty := 6 } : Order).side = buySide then
                witBook.bids else witBook.asks)).filter
            (fun x => ¬ x.id = ({ wSell 2 6 100 with remainingQty := 6 } : Order).id)) :=
  ⟨⟨by decide, by decide⟩,
    claim_C10 witBook { otype := OrderType.cancel, cancelId := 2 }
      { wSell 2 6 100 with remainingQty := 6 } (by decide) (by decide)⟩

/-! ### Claim C2: walk- and traversal-level invariant lemmas -/

/-- The level walk's surviving queue keeps any remaining-agnostic
property and positivity. -/
theorem walkLevel_orders_pred (S : Order → Prop)
    (hS : ∀ (o : Order) (r : Int), S o → S { o with remainingQty := r }) (ts : Int) :
    ∀ (pending kept : List Order) (inc : Order) (idx : List Nat) (tid : Nat),
      (∀ x ∈ kept, S x ∧ 0 < x.remainingQty) →
      (∀ x ∈ pending, S x ∧ 0 < x.remainingQty) →
      ∀ x ∈ (walkLevel inc kept pending idx tid ts).orders, S x ∧ 0 < x.remainingQty := by
  intro pending
  induction pending with
  | nil =>
    intro kept inc idx tid hk _
    rw [walkLevel_nil]
    exact hk
  | cons resting rest ih =>
    intro kept inc idx tid hk hp
    by_cases h : inc.remainingQty > 0
    · by_cases h2 : resting.remainingQty - min64 inc.remainingQty resting.remainingQty ≤ 0
      · rw [walkLevel_cons_rm inc resting kept rest idx tid ts h h2]
        exact ih kept _ _ _ hk (fun x hx => hp x (List.mem_cons_of_mem _ hx))
      · rw [walkLevel_cons_keep inc resting kept rest idx tid ts h h2]
        refine ih _ _ _ _ ?_ (fun x hx => hp x (List.mem_cons_of_mem _ hx))
        intro x hx
        rcases List.mem_append.mp hx with hx1 | hx2
        · exact hk x hx1
        · have hxe : x = { resting with
              remainingQty := resting.remainingQty - min64 inc.remainingQty resting.remainingQty } := by
            simpa using hx2
          rw [hxe]
          constructor
          · exact hS resting _ (hp resting (List.mem_cons_self _ _)).1
          · show 0 < resting.remainingQty - min64 inc.remainingQty resting.remainingQty
            omega
    · rw [walkLevel_cons_stop inc resting kept rest idx tid ts h]
      intro x hx
      rcases List.mem_append.mp hx with hx1 | hx2
      · exact hk x hx1
      · exact hp x hx2

/-- An exhausted incoming order leaves the rest of the queue
untouched. -/
theorem walkLevel_nonpos (ts : Int) (pending kept : List Order) (inc : Order)
    (idx : List Nat) (tid : Nat) (h : ¬ inc.remainingQty > 0) :
    walkLevel inc kept pending idx tid ts = ⟨[], kept ++ pending, idx, tid, inc⟩ := by
  cases pending with
  | nil => rw [walkLevel_nil]; simp
  | cons resting rest => exact walkLevel_cons_stop inc resting kept rest idx tid ts h

/-- If the walk ends with remaining quantity the whole queue was
consumed: the survivors are exactly the kept prefix. -/
theorem walkLevel_pos_rem (ts : Int) :
    ∀ (pending kept : List Order) (inc : Order) (idx : List Nat) (tid : Nat),
      0 < (walkLevel inc kept pending idx tid ts).inc.remainingQty →
      (walkLevel inc kept pending idx tid ts).orders = kept := by
  intro pending
  induction pending with
  | nil => intro kept inc idx tid _; rw [walkLevel_nil]
  | cons resting rest ih =>
    intro kept inc idx tid hpos
    by_cases h : inc.remainingQty > 0
    · by_cases h2 : resting.remainingQty - min64 inc.remainingQty resting.remainingQty ≤ 0
      · rw [walkLevel_cons_rm inc resting kept rest idx tid ts h h2] at hpos ⊢
        exact ih kept _ _ _ hpos
      · have hone : min64 inc.remainingQty resting.remainingQty = inc.remainingQty ∨
            min64 inc.remainingQty resting.remainingQty = resting.remainingQty := by
          unfold min64
          split
          · exact Or.inl rfl
          · exact Or.inr rfl
        have hfill : min64 inc.remainingQty resting.remainingQty = inc.remainingQty := by
          rcases hone with ho | ho
          · exact ho
          · omega
        have hrec := walkLevel_nonpos ts rest
          (kept ++ [{ resting with
            remainingQty := resting.remainingQty - min64 inc.remainingQty resting.remainingQty }])
          { inc with remainingQty := inc.remainingQty - min64 inc.remainingQty resting.remainingQty }
          idx (tid + 1)
          (by show ¬ inc.remainingQty - min64 inc.remainingQty resting.remainingQty > 0; omega)
        rw [walkLevel_cons_keep inc resting kept rest idx tid ts h h2] at hpos
        dsimp only at hpos
        rw [hrec] at hpos
        dsimp only at hpos
        exact absurd hpos (by omega)
    · rw [walkLevel_nonpos ts _ _ _ _ _ h] at hpos
      dsimp only at hpos
      exact absurd hpos h

/-- The surviving queue's ids form a sublist of the input queue's
ids. -/
theorem walkLevel_ids_sub (ts : Int) :
    ∀ (pending kept : List Order) (inc : Order) (idx : List Nat) (tid : Nat),
      List.Sublist ((walkLevel inc kept pending idx tid ts).orders.map (fun x => x.id))
        ((kept ++ pending).map (fun x => x.id)) := by
  intro pending
  induction pending with
  | nil => intro kept inc idx tid; rw [walkLevel_nil]; simp
  | cons resting rest ih =>
    intro kept inc idx tid
    by_cases h : inc.remainingQty > 0
    · by_cases h2 : resting.remainingQty - min64 inc.remainingQty resting.remainingQty ≤ 0
      · rw [walkLevel_cons_rm inc resting kept rest idx tid ts h h2]
        refine (ih kept _ _ _).trans ?_
        simp only [List.map_append, List.map_cons]
        exact (List.Sublist.refl _).append (List.sublist_cons_self _ _)
      · rw [walkLevel_cons_keep inc resting kept rest idx tid ts h h2]
        have hee : (((kept ++ [{ resting with
              remainingQty := resting.remainingQty - min64 inc.remainingQty resting.remainingQty }]) ++ rest).map (fun x : Order => x.id))
            = ((kept ++ resting :: rest).map (fun x : Order => x.id)) := by
          simp
        rw [← hee]
        exact ih _ _ _ _
    · rw [walkLevel_cons_stop inc resting kept rest idx tid ts h]

/-- Dropping the one occurrence of a fresh element by filtering. -/
theorem filter_out_unique (R1 R2 : List Nat) (a : Nat)
    (hnd : (R1 ++ a :: R2).Nodup) :
    (R1 ++ a :: R2).filter (fun k => ¬ k = a) = R1 ++ R2 := by
  have hsplit := List.nodup_append.mp hnd
  have h1 : ¬ a ∈ R1 := fun hmem => hsplit.2.2 hmem (List.mem_cons_self a R2)
  have h2 : ¬ a ∈ R2 := by
    have := hsplit.2.1
    rw [List.nodup_cons] at this
    exact this.1
  rw [List.filter_append, List.filter_cons]
  have hr1 : R1.filter (fun k => ¬ k = a) = R1 := by
    apply List.filter_eq_self.mpr
    intro x hx
    have hne : ¬ x = a := fun he => h1 (by rw [← he]; exact hx)
    simpa using hne
  have hr2 : R2.filter (fun k => ¬ k = a) = R2 := by
    apply List.filter_eq_self.mpr
    intro x hx
    have hne : ¬ x = a := fun he => h2 (by rw [← he]; exact hx)
    simpa using hne
  rw [hr1, hr2]
  simp

/-- The walk deletes from the order index exactly the ids it removes
from the queue: the index stays a permutation of the context ids plus
the surviving queue's ids. -/
theorem walkLevel_idx_perm (ts : Int) :
    ∀ (pending kept : List Order) (inc : Order) (idx : List Nat) (tid : Nat) (R : List Nat),
      List.Perm idx (R ++ (kept ++ pending).map (fun x => x.id)) →
      (R ++ (kept ++ pending).map (fun x => x.id)).Nodup →
      List.Perm (walkLevel inc kept pending idx tid ts).idx
        (R ++ (walkLevel inc kept pending idx tid ts).orders.map (fun x => x.id)) := by
  intro pending
  induction pending with
  | nil =>
    intro kept inc idx tid R hperm _
    rw [walkLevel_nil]
    simpa using hperm
  | cons resting rest ih =>
    intro kept inc idx tid R hperm hnd
    by_cases h : inc.remainingQty > 0
    · by_cases h2 : resting.remainingQty - min64 inc.remainingQty resting.remainingQty ≤ 0
      · rw [walkLevel_cons_rm inc resting kept rest idx tid ts h h2]
        have hre : R ++ ((kept ++ resting :: rest).map (fun x => x.id))
            = (R ++ kept.map (fun x => x.id)) ++ resting.id :: rest.map (fun x => x.id) := by
          simp [List.map_append]
        rw [hre] at hperm hnd
        have hperm2 : List.Perm (idxDelete idx resting.id)
            ((R ++ kept.map (fun x => x.id)) ++ rest.map (fun x => x.id)) := by
          have hf := hperm.filter (fun k => ¬ k = resting.id)
          rw [filter_out_unique _ _ _ hnd] at hf
          exact hf
        have hnd2 : ((R ++ kept.map (fun x => x.id)) ++ rest.map (fun x => x.id)).Nodup :=
          List.Nodup.sublist ((List.Sublist.refl _).append (List.sublist_cons_self _ _)) hnd
        have hre2 : (R ++ kept.map (fun x => x.id)) ++ rest.map (fun x => x.id)
            = R ++ (kept ++ rest).map (fun x => x.id) := by
          simp [List.map_append]
        rw [hre2] at hperm2 hnd2
        exact ih kept _ _ _ R hperm2 hnd2
      · rw [walkLevel_cons_keep inc resting kept rest idx tid ts h h2]
        have hee : (((kept ++ [{ resting with
              remainingQty := resting.remainingQty - min64 inc.remainingQty resting.remainingQty }]) ++ rest).map (fun x : Order => x.id))
            = ((kept ++ resting :: rest).map (fun x : Order => x.id)) := by
          simp
        refine ih _ _ _ _ R ?_ ?_
        · rw [hee]; exact hperm
        · rw [hee]; exact hnd
    · rw [walkLevel_cons_stop inc resting kept rest idx tid ts h]
      exact hperm

/-- The walk's updated index is a filtered sublist of the input
index. -/
theorem walkLevel_idx_sublist (ts : Int) :
    ∀ (pending kept : List Order) (inc : Order) (idx : List Nat) (tid : Nat),
      List.Sublist (walkLevel inc kept pending idx tid ts).idx idx := by
  intro pending
  induction pending with
  | nil => intro kept inc idx tid; rw [walkLevel_nil]
  | cons resting rest ih =>
    intro kept inc idx tid
    by_cases h : inc.remainingQty > 0
    · by_cases h2 : resting.remainingQty - min64 inc.remainingQty resting.remainingQty ≤ 0
      · rw [walkLevel_cons_rm inc resting kept rest idx tid ts h h2]
        exact (ih kept _ _ _).trans (List.filter_sublist idx)
      · rw [walkLevel_cons_keep inc resting kept rest idx tid ts h h2]
        exact ih _ _ _ _
    · rw [walkLevel_cons_stop inc resting kept rest idx tid ts h]

/-- The traversal's surviving levels stay well-formed. -/
theorem matchLevels_levelsWF (P : Order → Prop)
    (hP : ∀ (o : Order) (r : Int), P o → P { o with remainingQty := r }) (ts : Int) :
    ∀ (levels : List PriceLevel) (inc : Order) (idx : List Nat) (tid : Nat),
      levelsWF P levels → levelsWF P (matchLevels inc levels idx tid ts).levels := by
  intro levels
  induction levels with
  | nil => intro inc idx tid _; rw [matchLevels_nil]; intro l hl; cases hl
  | cons level rest ih =>
    intro inc idx tid hwf
    have hwf0 := hwf level (List.mem_cons_self _ _)
    have hwfr : levelsWF P rest := fun l2 h2 => hwf l2 (List.mem_cons_of_mem _ h2)
    by_cases h : inc.remainingQty > 0
    · cases hb : priceBreak inc level.price with
      | true => rw [matchLevels_break inc level rest idx tid ts h hb]; exact hwf
      | false =>
        cases hw : (walkLevel inc [] level.orders idx tid ts).orders with
        | nil =>
          rw [matchLevels_cont inc level rest idx tid ts h hb hw]
          exact ih _ _ _ hwfr
        | cons o os =>
          rw [matchLevels_keep inc level rest idx tid ts h hb o os hw]
          intro l2 hl2
          rcases List.mem_cons.mp hl2 with he | ht
          · subst he
            refine ⟨by simp, ?_⟩
            intro x hx
            have hsurv := walkLevel_orders_pred
              (fun y => y.price = level.price ∧ P y)
              (fun y r hy => ⟨hy.1, hP y r hy.2⟩) ts level.orders [] inc idx tid
              (fun x2 hx2 => absurd hx2 (List.not_mem_nil x2))
              (fun x2 hx2 => ⟨⟨(hwf0.2 x2 hx2).1, (hwf0.2 x2 hx2).2.1⟩, (hwf0.2 x2 hx2).2.2⟩)
              x (by rw [hw]; exact hx)
            exact ⟨hsurv.1.1, hsurv.1.2, hsurv.2⟩
          · exact hwfr l2 ht
    · rw [matchLevels_stop inc level rest idx tid ts h]
      exact hwf

/-- The surviving levels' prices form a suffix of the input prices. -/
theorem matchLevels_prices_suffix (ts : Int) :
    ∀ (levels : List PriceLevel) (inc : Order) (idx : List Nat) (tid : Nat),
      List.IsSuffix ((matchLevels inc levels idx tid ts).levels.map (fun l => l.price))
        (levels.map (fun l => l.price)) := by
  intro levels
  induction levels with
  | nil => intro inc idx tid; rw [matchLevels_nil]
  | cons level rest ih =>
    intro inc idx tid
    by_cases h : inc.remainingQty > 0
    · cases hb : priceBreak inc level.price with
      | true =>
        rw [matchLevels_break inc level rest idx tid ts h hb]
      | false =>
        cases hw : (walkLevel inc [] level.orders idx tid ts).orders with
        | nil =>
          rw [matchLevels_cont inc level rest idx tid ts h hb hw]
          exact (ih _ _ _).trans (by rw [List.map_cons]; exact List.suffix_cons _ _)
        | cons o os =>
          rw [matchLevels_keep inc level rest idx tid ts h hb o os hw]
          show List.IsSuffix (({ level with orders := o :: os } :: rest).map (fun l => l.price)) _
          simp only [List.map_cons]
          exact List.suffix_refl _
    · rw [matchLevels_stop inc level rest idx tid ts h]

/-- The surviving levels' resting ids form a sublist of the input
resting ids. -/
theorem matchLevels_ids_sublist (ts : Int) :
    ∀ (levels : List PriceLevel) (inc : Order) (idx : List Nat) (tid : Nat),
      List.Sublist (flattenIds (matchLevels inc levels idx tid ts).levels)
        (flattenIds levels) := by
  intro levels
  induction levels with
  | nil => intro inc idx tid; rw [matchLevels_nil]
  | cons level rest ih =>
    intro inc idx tid
    by_cases h : inc.remainingQty > 0
    · cases hb : priceBreak inc level.price with
      | true =>
        rw [matchLevels_break inc level rest idx tid ts h hb]
      | false =>
        cases hw : (walkLevel inc [] level.orders idx tid ts).orders with
        | nil =>
          rw [matchLevels_cont inc level rest idx tid ts h hb hw]
          refine (ih _ _ _).trans ?_
          rw [flattenIds_cons]
          exact List.sublist_append_right _ _
        | cons o os =>
          rw [matchLevels_keep inc level rest idx tid ts h hb o os hw]
          show List.Sublist (flattenIds ({ level with orders := o :: os } :: rest)) _
          rw [flattenIds_cons, flattenIds_cons]
          refine List.Sublist.append ?_ (List.Sublist.refl _)
          have hsub := walkLevel_ids_sub ts level.orders [] inc idx tid
          rw [hw] at hsub
          simpa using hsub
    · rw [matchLevels_stop inc level rest idx tid ts h]

/-- Through the traversal the order index stays a permutation of the
context ids plus the surviving resting ids. -/
theorem matchLevels_idx_perm (ts : Int) :
    ∀ (levels : List PriceLevel) (inc : Order) (idx : List Nat) (tid : Nat) (R : List Nat),
      List.Perm idx (R ++ flattenIds levels) →
      (R ++ flattenIds levels).Nodup →
      List.Perm (matchLevels inc levels idx tid ts).idx
        (R ++ flattenIds (matchLevels inc levels idx tid ts).levels) := by
  intro levels
  induction levels with
  | nil =>
    intro inc idx tid R hperm _
    rw [matchLevels_nil]
    exact hperm
  | cons level rest ih =>
    intro inc idx tid R hperm hnd
    by_cases h : inc.remainingQty > 0
    · cases hb : priceBreak inc level.price with
      | true =>
        rw [matchLevels_break inc level rest idx tid ts h hb]
        exact hperm
      | false =>
        have hreorder : List.Perm (R ++ flattenIds (level :: rest))
            ((R ++ flattenIds rest) ++ level.orders.map (fun x => x.id)) := by
          rw [flattenIds_cons, List.append_assoc]
          exact List.Perm.append_left R List.perm_append_comm
        have hperm0 : List.Perm idx
            ((R ++ flattenIds rest) ++ level.orders.map (fun x => x.id)) :=
          hperm.trans hreorder
        have hnd0 : ((R ++ flattenIds rest) ++ level.orders.map (fun x => x.id)).Nodup :=
          hreorder.nodup hnd
        have hwp := walkLevel_idx_perm ts level.orders [] inc idx tid
          (R ++ flattenIds rest) (by simpa using hperm0) (by simpa using hnd0)
        cases hw : (walkLevel inc [] level.orders idx tid ts).orders with
        | nil =>
          rw [matchLevels_cont inc level rest idx tid ts h hb hw]
          rw [hw] at hwp
          have hwp2 : List.Perm (walkLevel inc [] level.orders idx tid ts).idx
              (R ++ flattenIds rest) := by simpa using hwp
          have hnd2 : (R ++ flattenIds rest).Nodup :=
            List.Nodup.sublist (List.sublist_append_left _ _) hnd0
          exact ih _ _ _ R hwp2 hnd2
        | cons o os =>
          rw [matchLevels_keep inc level rest idx tid ts h hb o os hw]
          rw [hw] at hwp
          show List.Perm (walkLevel inc [] level.orders idx tid ts).idx
            (R ++ flattenIds ({ level with orders := o :: os } :: rest))
          rw [flattenIds_cons]
          refine hwp.trans ?_
          rw [List.append_assoc]
          exact List.Perm.append_left R List.perm_append_comm
    · rw [matchLevels_stop inc level rest idx tid ts h]
      exact hperm

/-- The traversal's updated index is a sublist of the input index. -/
theorem matchLevels_idx_sublist (ts : Int) :
    ∀ (levels : List PriceLevel) (inc : Order) (idx : List Nat) (tid : Nat),
      List.Sublist (matchLevels inc levels idx tid ts).idx idx := by
  intro levels
  induction levels with
  | nil => intro inc idx tid; rw [matchLevels_nil]
  | cons level rest ih =>
    intro inc idx tid
    by_cases h : inc.remainingQty > 0
    · cases hb : priceBreak inc level.price with
      | true =>
        rw [matchLevels_break inc level rest idx tid ts h hb]
      | false =>
        cases hw : (walkLevel inc [] level.orders idx tid ts).orders with
        | nil =>
          rw [matchLevels_cont inc level rest idx tid ts h hb hw]
          exact (ih _ _ _).trans (walkLevel_idx_sublist ts level.orders [] inc idx tid)
        | cons o os =>
          rw [matchLevels_keep inc level rest idx tid ts h hb o os hw]
          exact walkLevel_idx_sublist ts level.orders [] inc idx tid
    · rw [matchLevels_stop inc level rest idx tid ts h]

/-- If the traversal ends with remaining quantity, it either consumed
the whole side or stopped at the price-break condition on the first
surviving level. -/
theorem matchLevels_pos_shape (ts : Int) :
    ∀ (levels : List PriceLevel) (inc : Order) (idx : List Nat) (tid : Nat),
      (∀ l ∈ levels, l.orders ≠ []) →
      0 < (matchLevels inc levels idx tid ts).inc.remainingQty →
      (matchLevels inc levels idx tid ts).levels = [] ∨
        priceBreak (matchLevels inc levels idx tid ts).inc
          (headPrice (matchLevels inc levels idx tid ts).levels) = true := by
  intro levels
  induction levels with
  | nil => intro inc idx tid _ _; rw [matchLevels_nil]; exact Or.inl rfl
  | cons level rest ih =>
    intro inc idx tid hne hpos
    have hner : ∀ l ∈ rest, l.orders ≠ [] := fun l h2 => hne l (List.mem_cons_of_mem _ h2)
    by_cases h : inc.remainingQty > 0
    · cases hb : priceBreak inc level.price with
      | true =>
        rw [matchLevels_break inc level rest idx tid ts h hb]
        refine Or.inr ?_
        rw [headPrice_cons]
        exact hb
      | false =>
        cases hw : (walkLevel inc [] level.orders idx tid ts).orders with
        | nil =>
          rw [matchLevels_cont inc level rest idx tid ts h hb hw] at hpos ⊢
          exact ih _ _ _ hner hpos
        | cons o os =>
          rw [matchLevels_keep inc level rest idx tid ts h hb o os hw] at hpos
          dsimp only at hpos
          have := walkLevel_pos_rem ts level.orders [] inc idx tid hpos
          rw [hw] at this
          exact absurd this (by simp)
    · rw [matchLevels_stop inc level rest idx tid ts h] at hpos
      dsimp only at hpos
      exact absurd hpos h

end FairSim

